import Mathlib

/-!
Verification of the temperament engine (src/src/temperament.ts).

The repository represents a regular temperament as an element of a Clifford
algebra (the wedgie).  The multivector engine itself is an external
collaborator (the ts-geometric-algebra package); following the spec's
interface contract it is modelled here as a shallow embedding: a multivector
is a map from basis-blade index sets (finite sets of naturals) to rational
coefficients, components are enumerated grade-by-grade with the blades of
each grade in lexicographic order (the order the engine's vector/ganja
views expose and the order the code calls "lexicographic"), and machine
floats are modelled as exact rationals.

Definitions are grouped first, theorems afterwards.
-/

/-! ## Canonicalization (BaseTemperament.canonize, temperament.ts lines 203-223)

The temperament value is an array of components (integers, per the source
comment "Temperaments are stored as integers").  canonize computes the
running gcd of the absolute values of all components, finds the sign of the
lexicographically first nonzero component, and when the gcd is nonzero
multiplies every component by sign/gcd (an exact integer division).  In the
exact integer model there is no negative zero, so the source's negative-zero
fixup is the identity.
-/

/-- Running gcd of the absolute values of the components of a suffix of the
value, continuing from an accumulated gcd, exactly as the loop in canonize
accumulates its commonFactor variable. -/
def gcdFold (a : ℕ) (v : List ℤ) : ℕ :=
  v.foldl (fun a c => Nat.gcd a c.natAbs) a

/-- The integer gcd across all components of the value (zeros are absorbed),
the final commonFactor of canonize. -/
def gcdAll (v : List ℤ) : ℕ := gcdFold 0 v

/-- Sign of the lexicographically first nonzero component (0 when the whole
list is zero), the firstSign variable of canonize. -/
def firstSign (v : List ℤ) : ℤ :=
  match v.find? (fun c => c != 0) with
  | some c => Int.sign c
  | none => 0

/-- One component of the canonized value: the component times the sign of
the first nonzero component, divided (exactly) by the common factor. -/
def divSign (s : ℤ) (g : ℕ) (c : ℤ) : ℤ := c * s / (g : ℤ)

/-- BaseTemperament.canonize on the component list: no-op when the gcd is
zero (entirely zero value), otherwise every component is multiplied by
firstSign and divided by the common factor. -/
def canonize (v : List ℤ) : List ℤ :=
  if gcdAll v = 0 then v
  else v.map (divSign (firstSign v) (gcdAll v))

/-! ## The multivector engine (modelled from the spec)

Modelled from the spec: the repository delegates exterior-algebra arithmetic
to the external ts-geometric-algebra engine (spec section 6 lists the
required operations).  A multivector over an n-element basis is embedded as
a map from basis-blade index sets (subsets of range n) to rational
coefficients.  The wedge product carries the usual antisymmetry sign; the
vector/ganja component views enumerate the blades of each grade in
lexicographic order of their index tuples, which is the order the engine's
vector(grade) and fromVector use and that canonize calls "lexicographic". -/

/-- A multivector: rational coefficient for every basis-blade index set. -/
abbrev GA : Type := Finset ℕ → ℚ

/-- Sign accumulated when reordering the concatenation of two disjoint
index sets into increasing order: minus one to the number of inversions. -/
def wsign (S T : Finset ℕ) : ℚ :=
  (-1 : ℚ) ^ (∑ s in S, (T.filter (fun t => t < s)).card)

/-- Wedge (exterior) product of two multivectors. -/
def gaWedge (A B : GA) : GA :=
  fun R => ∑ S in R.powerset, wsign S (R \ S) * A S * B (R \ S)

/-- Scalar element (grade 0). -/
def gaScalar (c : ℚ) : GA := fun S => if S = ∅ then c else 0

/-- Promotion of a coefficient vector to a grade-1 element of the algebra of
dimension n (the engine's fromVector at grade 1). -/
def vecG (n : ℕ) (u : ℕ → ℚ) : GA :=
  fun S => if S.card = 1 ∧ S ⊆ Finset.range n then ∑ i in S, u i else 0

/-- Promotion of a val (an integer array in the source, modelled as a list
of rationals) to a grade-1 element. -/
def vecL (n : ℕ) (val : List ℚ) : GA := vecG n (fun i => val.getD i 0)

/-- Interior contraction by the first basis vector e0: picks out the
components whose blade contains index 0, re-indexed by the rest. -/
def contractE0 (T : GA) : GA :=
  fun S => if 0 ∈ S then 0 else T (insert 0 S)

/-- The multivector has support inside the algebra of dimension n. -/
def SuppIn (n : ℕ) (A : GA) : Prop :=
  ∀ S, ¬ S ⊆ Finset.range n → A S = 0

/-- The multivector is concentrated in grade r. -/
def Homog (r : ℕ) (A : GA) : Prop :=
  ∀ S, S.card ≠ r → A S = 0

/-- All r-element subsets of the interval [a, a+k) in lexicographic order of
their increasing index tuples: the tuples starting with a come first. -/
def combosAux : ℕ → ℕ → ℕ → List (Finset ℕ)
  | _, _, 0 => [∅]
  | _, 0, _ + 1 => []
  | a, k + 1, r + 1 =>
      ((combosAux (a + 1) k r).map (insert a)) ++ combosAux (a + 1) k (r + 1)

/-- All r-element subsets of [a, n) in lexicographic order. -/
def combosFrom (a n r : ℕ) : List (Finset ℕ) := combosAux a (n - a) r

/-- The engine's vector(grade) view: the grade-r components of a multivector
in lexicographic blade order. -/
def vectorGrade (n r : ℕ) (M : GA) : List ℚ := (combosFrom 0 n r).map M

/-- Assembly of a multivector from a blade enumeration and a coefficient
list (coefficient of the first occurrence of the blade, 0 elsewhere). -/
def assembleGA (L : List (Finset ℕ)) (cs : List ℚ) : GA :=
  fun S => ((L.zip cs).find? (fun p => decide (p.1 = S))).elim 0 Prod.snd

/-- The engine's fromVector(components, grade): build a multivector from its
grade-r coefficient list in lexicographic blade order. -/
def fromVectorG (n g : ℕ) (cs : List ℚ) : GA := assembleGA (combosFrom 0 n g) cs

/-- The engine's isNil(0) test restricted to the 2^n components the
dimension-n algebra stores: every stored coefficient is zero. -/
def gaIsNil (n : ℕ) (A : GA) : Prop :=
  ∀ S ∈ (Finset.range n).powerset, A S = 0

instance (n : ℕ) (A : GA) : Decidable (gaIsNil n A) :=
  Finset.decidableDforallFinset

/-! ## Construction from vals
(FreeTemperament.fromVals lines 672-692 and Temperament.fromVals lines
930-949; both accumulate wedges starting from the scalar unit and keep the
previous accumulation whenever the wedge with the next val is nil.  Wart
string conversion is handled by the external warts/subgroup collaborators
and vals are taken here directly as coefficient arrays.) -/

/-- fromVals: fold the promoted vals into a wedge product left to right,
discarding any val whose wedge with the accumulation vanishes. -/
def fromValsG (n : ℕ) (vals : List (List ℚ)) : GA :=
  vals.foldl
    (fun acc val =>
      let next := gaWedge acc (vecL n val)
      if gaIsNil n next then acc else next)
    (gaScalar 1)

/-! ## Rank prefix and reconstruction
(BaseTemperament.rankPrefix lines 308-317, Temperament.fromPrefix lines
996-1022 and FreeTemperament.fromPrefix lines 723-743; both fromPrefix
variants pad the prefix to the end of a grade-(rank-1) coefficient vector,
wedge with the normalized just-intonation vector jip/jip[0], and round every
component of the result to the nearest integer.) -/

/-- rankPrefix(rank): the first C(n-1, rank-1) components of the grade-rank
coefficient vector of the value. -/
def rankPrefixG (n rank : ℕ) (M : GA) : List ℚ :=
  (vectorGrade n rank M).take (Nat.choose (n - 1) (rank - 1))

/-- The normalized just-intonation vector jip.map(j => j / jip[0]). -/
def jipNorm (jip : ℕ → ℚ) : ℕ → ℚ := fun i => jip i / jip 0

/-- The padded wedgie of fromPrefix: a zero-filled coefficient vector of
length C(n, rank-1) with the prefix spliced onto its tail. -/
def paddedWedgie (n rank : ℕ) (p : List ℚ) : List ℚ :=
  List.replicate (Nat.choose n (rank - 1) - p.length) 0 ++ p

/-- fromPrefix before the rounding step: promote the padded prefix to grade
rank-1 and wedge with the normalized just-intonation vector. -/
def fromPrefixRaw (n rank : ℕ) (p : List ℚ) (jip : ℕ → ℚ) : GA :=
  gaWedge (fromVectorG n (rank - 1) (paddedWedgie n rank p))
    (vecG n (jipNorm jip))

/-- The full component list of a multivector in the engine's ganja order
(grades ascending, blades of each grade in lexicographic order). -/
def allComponents (n : ℕ) (M : GA) : List ℚ :=
  (List.range (n + 1)).flatMap (fun r => vectorGrade n r M)

/-- Rounding every component to the nearest integer (the loop at the end of
fromPrefix followed by conversion to the integer algebra), in ganja order. -/
def intComponents (n : ℕ) (M : GA) : List ℤ :=
  (allComponents n M).map (fun q => round q)

/-- The integer value produced by fromPrefix, as its ganja component list. -/
def fromPrefixInt (n rank : ℕ) (p : List ℚ) (jip : ℕ → ℚ) : List ℤ :=
  intComponents n (fromPrefixRaw n rank p jip)

/-! ## Constrained tuning pipeline
(BaseTemperament.calculateCTE lines 76-120.)  calculateCTE works in the
projective geometric algebra with one extra null dimension e0: dualWeights
is [1, ...weights reciprocals], promote takes the dual of the value,
re-indexes its blades away from e0 (the source shifts every blade mask left
by one bit) and applies the dual weights, and each constraint contributes
the plane fromVector([-dot(jip, constraint), ...constraint]) with dual
weights applied, wedged onto the promoted value.  proj then multiplies by
the inverse of the accumulated blade; the external engine's inverse throws
on non-invertible elements (modelled from the spec's error taxonomy:
numerical failures are reported, never silently defaulted). -/

/-- The dual weights [1, 1/w0, 1/w1, ...] of calculateCTE. -/
def dualw (weights : ℕ → ℚ) : ℕ → ℚ :=
  fun i => if i = 0 then 1 else 1 / weights (i - 1)

/-- Modelled from the spec: the engine's Hodge dual in dimension n (sign
convention: right complement; no property proved here depends on the sign
choice). -/
def dualN (n : ℕ) (T : GA) : GA :=
  fun S => if S ⊆ Finset.range n then
    wsign (Finset.range n \ S) S * T (Finset.range n \ S) else 0

/-- promote of calculateCTE: dualize the value, shift every blade away from
the null dimension e0, and apply the dual weights componentwise. -/
def promoteP (n : ℕ) (weights : ℕ → ℚ) (T : GA) : GA :=
  fun S => if 0 ∈ S ∨ ¬ S ⊆ Finset.range (n + 1) then 0
    else (∏ i in S, dualw weights i) * dualN n T (S.image (fun i => i - 1))

/-- The dot product of two coefficient vectors over the first n indices. -/
def dotF (n : ℕ) (a b : ℕ → ℚ) : ℚ := ∑ i in Finset.range n, a i * b i

/-- One constraint plane of calculateCTE:
PGA.fromVector([-dot(jip, constraint), ...constraint]) with the dual
weights applied. -/
def ctePlane (n : ℕ) (jip weights m : ℕ → ℚ) : GA :=
  vecG (n + 1)
    (fun i => (if i = 0 then -(dotF n jip m) else m (i - 1)) * dualw weights i)

/-- The projectivized element whose inverse the proj step of calculateCTE
requires: the promoted value wedged with one plane per constraint. -/
def cteBlade (n : ℕ) (jip weights : ℕ → ℚ) (T : GA) (cs : List (ℕ → ℚ)) : GA :=
  cs.foldl (fun acc m => gaWedge acc (ctePlane n jip weights m)) (promoteP n weights T)

/-- The degenerate (projective) metric factor: e0 squares to zero, every
other basis vector squares to one. -/
def pgaMetric (S : Finset ℕ) : ℚ := if 0 ∈ S then 0 else 1

/-- Modelled from the spec: the engine's geometric product in the
d-dimensional projective algebra (diagonal metric with the null e0). -/
def gaMul (d : ℕ) (A B : GA) : GA :=
  fun R => ∑ S in (Finset.range d).powerset, ∑ U in (Finset.range d).powerset,
    if symmDiff S U = R then wsign S U * pgaMetric (S ∩ U) * A S * B U else 0

/-- An element of the d-dimensional projective algebra is invertible when
some element multiplies with it to the scalar unit.  The engine's inverse
throws precisely when no such element exists. -/
def gaInvertible (d : ℕ) (A : GA) : Prop := ∃ B, gaMul d A B = gaScalar 1

/-! ## Tuning models
(FreeTemperament.getMapping lines 563-609 and Temperament.getMapping lines
833-867.)  The least-squares cores calculateTenneyEuclid / calculateCTE
produce some mapping via the external engine's float algebra; the claims
below concern the surrounding control flow, so both cores enter the model
as explicit arguments (teCore and cteCore), constraints enter already
resolved to monzo form (resolution lives in the external subgroup module),
units are fixed to nats (the identity branch of the unit conversion), and
Temperament's purifier log(basis[0]) equals its jip[0] by definition of the
just-intonation point. -/

/-- The option fields of TuningOptions the mapping control flow reads. -/
structure TuningOpts where
  temperEquaves : Bool
  primeMapping : Bool
  constraints : List (List ℚ)

/-- The pure-equave rescale: every component of the mapping is multiplied
by the purifier jip[0] / mapping[0]. -/
def purify (jip mapping : List ℚ) : List ℚ :=
  mapping.map (fun c => c * (jip.getD 0 0 / mapping.getD 0 0))

/-- FreeTemperament.getMapping in nats: fails on primeMapping, picks the
constrained or unconstrained core, and purifies unless temperEquaves. -/
def freeGetMapping (opts : TuningOpts) (jip teCore cteCore : List ℚ) :
    Except String (List ℚ) :=
  if opts.primeMapping then
    Except.error "Free temperaments cannot be interpreted as primes"
  else
    let mapping := if opts.constraints.isEmpty then teCore else cteCore
    Except.ok (if opts.temperEquaves then mapping else purify jip mapping)

/-- Temperament.getMapping in nats: picks the core, purifies unless
temperEquaves, and converts via subgroup.toPrimeMapping (an external
collaborator, passed in as toPrime) when primeMapping is set. -/
def temperamentGetMapping (opts : TuningOpts) (jip teCore cteCore : List ℚ)
    (toPrime : List ℚ → List ℚ) : Except String (List ℚ) :=
  let mapping := if opts.constraints.isEmpty then teCore else cteCore
  let mapping2 := if opts.temperEquaves then mapping else purify jip mapping
  Except.ok (if opts.primeMapping then toPrime mapping2 else mapping2)

/-! ## Period and generator (BaseTemperament.periodGenerator lines 127-148)
The mapping is obtained in nats, numPeriodsGenerator supplies the period
count and the generator monzo (via the external iteratedEuclid helper), the
period is mapping[0] / numPeriods and the generator is reduced to the
smaller of its two mirror images modulo the period. -/

/-- Dot product of two lists over their common length (xen-dev-utils dot). -/
def dotQ (a b : List ℚ) : ℚ := (a.zip b).foldl (fun s p => s + p.1 * p.2) 0

/-- Mathematical modulo on rationals (xen-dev-utils mmod): the
representative of a modulo b in [0, b) for positive b. -/
def mmodQ (a b : ℚ) : ℚ := a - b * ⌊a / b⌋

/-- periodGenerator with units 'nats': the period is mapping[0]/numPeriods
and the generator is min(g mod period, -g mod period) for g the dot of the
mapping with the generator monzo. -/
def periodGeneratorNats (mapping : List ℚ) (numPeriods : ℚ)
    (genMonzo : List ℚ) : ℚ × ℚ :=
  let period := mapping.getD 0 0 / numPeriods
  let g := dotQ mapping genMonzo
  (period, min (mmodQ g period) (mmodQ (-g) period))

/-! ## Rescaling a floating-point blade to integers
(BaseTemperament.rescaleValue lines 319-361, invoked by valJoin/valMeet
lines 876-921 on the float meet/join of the two values.)  The signed
component of smallest magnitude above the threshold seeds the normalizer
1/minValue (0 when no component qualifies, the reciprocal of the source's
Infinity); the loop multiplies it by j = 1, 2, ... while j < persistence
until every component scales to within threshold of an integer, and throws
when the loop exhausts. -/

/-- One step of the minValue scan of rescaleValue: keep the signed
component of smallest absolute value above the threshold seen so far (none
plays the role of the initial Infinity). -/
def minStep (t : ℚ) (m : Option ℚ) (c : ℚ) : Option ℚ :=
  match m with
  | none => if t < |c| then some c else none
  | some mv => if t < |c| ∧ |c| < |mv| then some c else some mv

/-- The signed component of smallest absolute value above the threshold
(the minValue accumulator of rescaleValue). -/
def minAbsAbove (blade : List ℚ) (t : ℚ) : Option ℚ :=
  blade.foldl (minStep t) none

/-- The initial normalizer 1/minValue of rescaleValue. -/
def rescaleNorm (blade : List ℚ) (t : ℚ) : ℚ :=
  match minAbsAbove blade t with
  | none => 0
  | some m => 1 / m

/-- Every component of the blade scaled by x rounds to an integer within
the threshold. -/
def goodMult (blade : List ℚ) (t : ℚ) (x : ℚ) : Prop :=
  ∀ c ∈ blade, |c * x - (round (c * x) : ℚ)| ≤ t

instance (blade : List ℚ) (t x : ℚ) : Decidable (goodMult blade t x) :=
  List.decidableBAll _ blade

/-- The rescale search of rescaleValue on the extracted blade: try the
multipliers j = 1, ..., persistence - 1 of the normalizer in order, return
the blade scaled by the first good multiplier and rounded, and report the
error otherwise. -/
def rescaleBlade (blade : List ℚ) (persistence : ℕ) (t : ℚ) :
    Except String (List ℤ) :=
  match (List.range' 1 (persistence - 1)).find?
      (fun j : ℕ => decide (goodMult blade t (rescaleNorm blade t * (j : ℚ)))) with
  | some j =>
      Except.ok (blade.map (fun c => round (c * (rescaleNorm blade t * (j : ℚ)))))
  | none => Except.error "Failed to rescale. Try increasing persistence."

/-- grades()[0]: the first grade with a nonzero component (0 for the zero
element, whose grades list is empty in the engine). -/
def firstGrade (n : ℕ) (M : GA) : ℕ :=
  (((List.range (n + 1)).find?
    (fun r => (vectorGrade n r M).any (fun c => decide (c ≠ 0))))).getD 0

/-- rescaleValue: extract the blade of the value's first nonzero grade and
run the rescale search on it. -/
def rescaleValueG (n : ℕ) (M : GA) (persistence : ℕ) (t : ℚ) :
    Except String (List ℤ) :=
  rescaleBlade (vectorGrade n (firstGrade n M) M) persistence t

/-! ### Helper lemmas about gcdFold, firstSign and divSign -/

theorem gcdFold_cons (a : ℕ) (c : ℤ) (v : List ℤ) :
    gcdFold a (c :: v) = gcdFold (Nat.gcd a c.natAbs) v := rfl

theorem gcdFold_dvd_init (v : List ℤ) (a : ℕ) : gcdFold a v ∣ a := by
  induction v generalizing a with
  | nil => simp [gcdFold]
  | cons c t ih =>
      exact (ih (Nat.gcd a c.natAbs)).trans (Nat.gcd_dvd_left _ _)

theorem gcdFold_dvd_mem (v : List ℤ) (a : ℕ) :
    ∀ c ∈ v, (gcdFold a v : ℤ) ∣ c := by
  induction v generalizing a with
  | nil => intro c hc; cases hc
  | cons x t ih =>
      intro c hc
      rcases List.mem_cons.mp hc with h | h
      · subst h
        have h1 : gcdFold a (c :: t) ∣ c.natAbs :=
          (gcdFold_dvd_init t _).trans (Nat.gcd_dvd_right _ _)
        have := Int.natCast_dvd_natCast.mpr h1
        exact this.trans (Int.natAbs_dvd.mpr dvd_rfl)
      · exact ih _ c h

theorem gcdFold_eq_zero_iff (v : List ℤ) (a : ℕ) :
    gcdFold a v = 0 ↔ a = 0 ∧ ∀ c ∈ v, c = 0 := by
  induction v generalizing a with
  | nil => simp [gcdFold]
  | cons x t ih =>
      rw [gcdFold_cons, ih]
      constructor
      · rintro ⟨hg, ht⟩
        rcases Nat.gcd_eq_zero_iff.mp hg with ⟨ha, hx⟩
        refine ⟨ha, ?_⟩
        intro c hc
        rcases List.mem_cons.mp hc with h | h
        · subst h; exact Int.natAbs_eq_zero.mp hx
        · exact ht c h
      · rintro ⟨ha, h⟩
        refine ⟨?_, fun c hc => h c (List.mem_cons_of_mem _ hc)⟩
        rw [ha, h x (List.mem_cons_self _ _)]
        simp

theorem gcdAll_eq_zero_iff (v : List ℤ) : gcdAll v = 0 ↔ ∀ c ∈ v, c = 0 := by
  simpa [gcdAll] using gcdFold_eq_zero_iff v 0

theorem gcdAll_dvd (v : List ℤ) : ∀ c ∈ v, (gcdAll v : ℤ) ∣ c :=
  gcdFold_dvd_mem v 0

/-- Exists a genuine first nonzero component when the list is not all zero. -/
theorem firstSign_units (v : List ℤ) (h : ¬ ∀ c ∈ v, c = 0) :
    firstSign v = 1 ∨ firstSign v = -1 := by
  have hfind : v.find? (fun c => c != 0) ≠ none := by
    intro hn
    apply h
    intro c hc
    have := List.find?_eq_none.mp hn c hc
    simpa using this
  rcases Option.ne_none_iff_exists'.mp hfind with ⟨c, hc⟩
  have hcne : c ≠ 0 := by
    have := List.find?_some hc
    simpa using this
  have : firstSign v = Int.sign c := by
    simp [firstSign, hc]
  rw [this]
  rcases Int.lt_or_lt_of_ne hcne with hlt | hlt
  · right; exact Int.sign_eq_neg_one_of_neg hlt
  · left; exact Int.sign_eq_one_of_pos hlt

theorem Nat.gcd_div_div (g a b : ℕ) (ha : g ∣ a) (hb : g ∣ b) :
    Nat.gcd (a / g) (b / g) = Nat.gcd a b / g := by
  rcases Nat.eq_zero_or_pos g with hg | hg
  · subst hg
    simp at ha hb
    simp [ha, hb]
  · obtain ⟨a', rfl⟩ := ha
    obtain ⟨b', rfl⟩ := hb
    rw [Nat.mul_div_cancel_left _ hg, Nat.mul_div_cancel_left _ hg,
      Nat.gcd_mul_left, Nat.mul_div_cancel_left _ hg]

theorem divSign_natAbs (s : ℤ) (g : ℕ) (c : ℤ) (hg : g ≠ 0)
    (hs : s = 1 ∨ s = -1) (hdvd : (g : ℤ) ∣ c) :
    (divSign s g c).natAbs = c.natAbs / g := by
  obtain ⟨k, rfl⟩ := hdvd
  have hgz : (g : ℤ) ≠ 0 := Int.natCast_ne_zero.mpr hg
  have h1 : divSign s g ((g : ℤ) * k) = k * s := by
    rw [divSign, mul_assoc, Int.mul_ediv_cancel_left _ hgz]
  rw [h1, Int.natAbs_mul, Int.natAbs_mul]
  rcases hs with rfl | rfl <;>
    simp [Nat.mul_div_cancel_left _ (Nat.pos_of_ne_zero hg)]

theorem divSign_eq_zero_iff (s : ℤ) (g : ℕ) (c : ℤ) (hg : g ≠ 0)
    (hs : s = 1 ∨ s = -1) (hdvd : (g : ℤ) ∣ c) :
    divSign s g c = 0 ↔ c = 0 := by
  obtain ⟨k, rfl⟩ := hdvd
  have hgz : (g : ℤ) ≠ 0 := Int.natCast_ne_zero.mpr hg
  have h1 : divSign s g ((g : ℤ) * k) = k * s := by
    rw [divSign, mul_assoc, Int.mul_ediv_cancel_left _ hgz]
  rw [h1]
  rcases hs with rfl | rfl <;> simp [hgz]

theorem divSign_sign (s : ℤ) (g : ℕ) (c : ℤ) (hg : g ≠ 0)
    (hs : s = 1 ∨ s = -1) (hdvd : (g : ℤ) ∣ c) :
    (divSign s g c).sign = c.sign * s := by
  obtain ⟨k, rfl⟩ := hdvd
  have hgz : (g : ℤ) ≠ 0 := Int.natCast_ne_zero.mpr hg
  have h1 : divSign s g ((g : ℤ) * k) = k * s := by
    rw [divSign, mul_assoc, Int.mul_ediv_cancel_left _ hgz]
  have hgs : ((g : ℤ)).sign = 1 :=
    Int.sign_eq_one_of_pos (by exact_mod_cast Nat.pos_of_ne_zero hg)
  rw [h1, Int.sign_mul, Int.sign_mul, hgs, one_mul]
  rcases hs with rfl | rfl <;> simp

theorem divSign_mul_cancel (s : ℤ) (g : ℕ) (c : ℤ) (hg : g ≠ 0)
    (hs : s = 1 ∨ s = -1) (hdvd : (g : ℤ) ∣ c) :
    divSign s g c * (s * (g : ℤ)) = c := by
  obtain ⟨k, rfl⟩ := hdvd
  have hgz : (g : ℤ) ≠ 0 := Int.natCast_ne_zero.mpr hg
  have h1 : divSign s g ((g : ℤ) * k) = k * s := by
    rw [divSign, mul_assoc, Int.mul_ediv_cancel_left _ hgz]
  rw [h1]
  rcases hs with rfl | rfl <;> ring

theorem gcdFold_map_div (s : ℤ) (g : ℕ) (v : List ℤ) (hg : g ≠ 0)
    (hs : s = 1 ∨ s = -1) (hall : ∀ c ∈ v, (g : ℤ) ∣ c) :
    ∀ a : ℕ, g ∣ a →
      gcdFold (a / g) (v.map (divSign s g)) = gcdFold a v / g := by
  induction v with
  | nil => intro a _; simp [gcdFold]
  | cons x t ih =>
      intro a ha
      have hx : (g : ℤ) ∣ x := hall x (List.mem_cons_self _ _)
      have hxn : g ∣ x.natAbs := by
        have := Int.natAbs_dvd_natAbs.mpr hx
        simpa using this
      have hall' : ∀ c ∈ t, (g : ℤ) ∣ c :=
        fun c hc => hall c (List.mem_cons_of_mem _ hc)
      rw [List.map_cons, gcdFold_cons, gcdFold_cons,
        divSign_natAbs s g x hg hs hx, Nat.gcd_div_div g a x.natAbs ha hxn]
      exact ih hall' _ (Nat.dvd_gcd ha hxn)

theorem firstSign_map_div (s : ℤ) (g : ℕ) (v : List ℤ) (hg : g ≠ 0)
    (hs : s = 1 ∨ s = -1) (hall : ∀ c ∈ v, (g : ℤ) ∣ c) :
    firstSign (v.map (divSign s g)) = firstSign v * s := by
  induction v with
  | nil => simp [firstSign]
  | cons x t ih =>
      have hx : (g : ℤ) ∣ x := hall x (List.mem_cons_self _ _)
      have hall' : ∀ c ∈ t, (g : ℤ) ∣ c :=
        fun c hc => hall c (List.mem_cons_of_mem _ hc)
      by_cases hx0 : x = 0
      · have hdx : divSign s g x = 0 :=
          (divSign_eq_zero_iff s g x hg hs hx).mpr hx0
        rw [List.map_cons]
        rw [show firstSign (divSign s g x :: t.map (divSign s g)) =
            firstSign (t.map (divSign s g)) by
          simp [firstSign, List.find?_cons, hdx]]
        rw [show firstSign (x :: t) = firstSign t by
          simp [firstSign, List.find?_cons, hx0]]
        exact ih hall'
      · have hdx : divSign s g x ≠ 0 := by
          intro h
          exact hx0 ((divSign_eq_zero_iff s g x hg hs hx).mp h)
        rw [List.map_cons]
        rw [show firstSign (divSign s g x :: t.map (divSign s g)) =
            (divSign s g x).sign by
          simp [firstSign, List.find?_cons, hdx]]
        rw [show firstSign (x :: t) = x.sign by
          simp [firstSign, List.find?_cons, hx0]]
        exact divSign_sign s g x hg hs hx

theorem getD_map_of_zero (f : ℤ → ℤ) (hf : f 0 = 0) (v : List ℤ) :
    ∀ i, (v.map f).getD i 0 = f (v.getD i 0) := by
  intro i
  induction v generalizing i with
  | nil => simp [hf]
  | cons x t ih =>
      cases i with
      | zero => simp
      | succ j => simpa using ih j

/-! ## Claim C1 and C8 theorems about canonize -/

/-- C1: when the value has at least one nonzero component, canonize divides
every component by the integer gcd of the components times the sign of the
lexicographically first nonzero component (stated multiplicatively, which
also shows the division is exact), producing a representative of the same
length whose components have overall gcd 1 and whose lexicographically
first nonzero component is positive; when the value is entirely zero,
canonize is a no-op.  (In the exact-integer model zero is unique, so the
source's negative-zero fixup is vacuously satisfied.) -/
theorem canonize_spec (v : List ℤ) :
    ((∃ c ∈ v, c ≠ 0) →
      (∀ i : ℕ, (canonize v).getD i 0 * (firstSign v * (gcdAll v : ℤ)) = v.getD i 0)
      ∧ (canonize v).length = v.length
      ∧ gcdAll (canonize v) = 1
      ∧ firstSign (canonize v) = 1)
    ∧ ((∀ c ∈ v, c = 0) → canonize v = v) := by
  constructor
  · rintro ⟨c0, hc0, hc0ne⟩
    have hnz : ¬ ∀ c ∈ v, c = 0 := fun h => hc0ne (h c0 hc0)
    have hg : gcdAll v ≠ 0 := fun h => hnz ((gcdAll_eq_zero_iff v).mp h)
    have hs : firstSign v = 1 ∨ firstSign v = -1 := firstSign_units v hnz
    have hcan : canonize v = v.map (divSign (firstSign v) (gcdAll v)) := by
      simp [canonize, hg]
    have hdz : divSign (firstSign v) (gcdAll v) 0 = 0 := by
      simp [divSign]
    refine ⟨?_, ?_, ?_, ?_⟩
    · intro i
      rw [hcan, getD_map_of_zero _ hdz]
      by_cases hi : i < v.length
      · have hmem : v.getD i 0 ∈ v := by
          rw [List.getD_eq_getElem v 0 hi]
          exact List.getElem_mem hi
        exact divSign_mul_cancel _ _ _ hg hs (gcdAll_dvd v _ hmem)
      · rw [List.getD_eq_default v 0 (Nat.le_of_not_lt hi), hdz, zero_mul]
    · rw [hcan, List.length_map]
    · rw [hcan]
      have h0 : (0 : ℕ) / gcdAll v = 0 := Nat.zero_div _
      have := gcdFold_map_div (firstSign v) (gcdAll v) v hg hs (gcdAll_dvd v)
        0 (dvd_zero _)
      rw [h0] at this
      rw [gcdAll, this]
      exact Nat.div_self (Nat.pos_of_ne_zero hg)
    · rw [hcan, firstSign_map_div _ _ v hg hs (gcdAll_dvd v)]
      rcases hs with h | h <;> rw [h] <;> norm_num
  · intro h
    have hg : gcdAll v = 0 := (gcdAll_eq_zero_iff v).mpr h
    simp [canonize, hg]

/-- Witness for C1 at the concrete value [0, 2, -4]: the hypothesis holds and
the canonized value has gcd 1 and positive leading nonzero component. -/
theorem canonize_spec_witness :
    (∃ c ∈ ([0, 2, -4] : List ℤ), c ≠ 0)
    ∧ gcdAll (canonize [0, 2, -4]) = 1
    ∧ firstSign (canonize [0, 2, -4]) = 1 := by
  have h := (canonize_spec [0, 2, -4]).1 (by decide)
  exact ⟨by decide, h.2.2.1, h.2.2.2⟩

/-- C8: canonize is idempotent; applying it twice leaves the value
componentwise identical to applying it once. -/
theorem canonize_idempotent (v : List ℤ) :
    canonize (canonize v) = canonize v := by
  by_cases hg : gcdAll v = 0
  · have h0 : canonize v = v := by simp [canonize, hg]
    rw [h0, h0]
  · have hnz : ¬ ∀ c ∈ v, c = 0 := fun h => hg ((gcdAll_eq_zero_iff v).mpr h)
    have hs : firstSign v = 1 ∨ firstSign v = -1 := firstSign_units v hnz
    have hcan : canonize v = v.map (divSign (firstSign v) (gcdAll v)) := by
      simp [canonize, hg]
    have hg1 : gcdAll (canonize v) = 1 := by
      rw [hcan]
      have h0 : (0 : ℕ) / gcdAll v = 0 := Nat.zero_div _
      have := gcdFold_map_div (firstSign v) (gcdAll v) v hg hs (gcdAll_dvd v)
        0 (dvd_zero _)
      rw [h0] at this
      rw [gcdAll, this]
      exact Nat.div_self (Nat.pos_of_ne_zero hg)
    have hs1 : firstSign (canonize v) = 1 := by
      rw [hcan, firstSign_map_div _ _ v hg hs (gcdAll_dvd v)]
      rcases hs with h | h <;> rw [h] <;> norm_num
    have hdiv1 : ∀ c ∈ canonize v, divSign 1 1 c = c := by
      intro c _
      simp [divSign]
    set w := canonize v with hwdef
    unfold canonize
    rw [if_neg (by rw [hg1]; exact one_ne_zero), hg1, hs1,
      List.map_congr_left hdiv1]
    simp

/-! ### Structure of the blade enumeration -/

theorem mem_combosAux (k : ℕ) :
    ∀ (a r : ℕ) (S : Finset ℕ),
      S ∈ combosAux a k r ↔ S.card = r ∧ ∀ x ∈ S, a ≤ x ∧ x < a + k := by
  induction k with
  | zero =>
      intro a r S
      cases r with
      | zero =>
          simp only [combosAux, List.mem_singleton]
          constructor
          · rintro rfl; simp
          · rintro ⟨hc, _⟩
            exact Finset.card_eq_zero.mp hc
      | succ r =>
          simp only [combosAux, List.not_mem_nil, false_iff]
          rintro ⟨hc, hb⟩
          obtain ⟨x, hx⟩ := Finset.card_pos.mp (by omega : 0 < S.card)
          have := hb x hx
          omega
  | succ k ih =>
      intro a r S
      cases r with
      | zero =>
          simp only [combosAux, List.mem_singleton]
          constructor
          · rintro rfl; simp
          · rintro ⟨hc, _⟩
            exact Finset.card_eq_zero.mp hc
      | succ r =>
          simp only [combosAux, List.mem_append, List.mem_map]
          constructor
          · rintro (⟨S', hS', rfl⟩ | h)
            · rcases (ih (a + 1) r S').mp hS' with ⟨hc, hb⟩
              have ha : a ∉ S' := fun h => by have := hb a h; omega
              refine ⟨by rw [Finset.card_insert_of_not_mem ha, hc], ?_⟩
              intro x hx
              rcases Finset.mem_insert.mp hx with rfl | hx
              · omega
              · have := hb x hx; omega
            · rcases (ih (a + 1) (r + 1) S).mp h with ⟨hc, hb⟩
              exact ⟨hc, fun x hx => by have := hb x hx; omega⟩
          · rintro ⟨hc, hb⟩
            by_cases ha : a ∈ S
            · left
              refine ⟨S.erase a, ?_, Finset.insert_erase ha⟩
              rw [ih (a + 1) r]
              refine ⟨by rw [Finset.card_erase_of_mem ha, hc]; rfl, ?_⟩
              intro x hx
              have hxS := Finset.mem_of_mem_erase hx
              have hxa := Finset.ne_of_mem_erase hx
              have := hb x hxS
              omega
            · right
              rw [ih (a + 1) (r + 1)]
              refine ⟨hc, ?_⟩
              intro x hx
              have := hb x hx
              have : x ≠ a := fun h => ha (h ▸ hx)
              omega

theorem mem_combosFrom (a n r : ℕ) (S : Finset ℕ) (han : a ≤ n) :
    S ∈ combosFrom a n r ↔ S.card = r ∧ ∀ x ∈ S, a ≤ x ∧ x < n := by
  rw [combosFrom, mem_combosAux]
  constructor
  · rintro ⟨hc, hb⟩
    exact ⟨hc, fun x hx => by have := hb x hx; omega⟩
  · rintro ⟨hc, hb⟩
    exact ⟨hc, fun x hx => by have := hb x hx; omega⟩

theorem length_combosAux (k : ℕ) :
    ∀ a r : ℕ, (combosAux a k r).length = Nat.choose k r := by
  induction k with
  | zero =>
      intro a r
      cases r <;> simp [combosAux]
  | succ k ih =>
      intro a r
      cases r with
      | zero => simp [combosAux]
      | succ r =>
          simp only [combosAux, List.length_append, List.length_map, ih,
            Nat.choose_succ_succ]

theorem length_combosFrom (a n r : ℕ) :
    (combosFrom a n r).length = Nat.choose (n - a) r := by
  rw [combosFrom, length_combosAux]

theorem combosFrom_zero_succ (n r : ℕ) (hn : 0 < n) :
    combosFrom 0 n (r + 1)
      = ((combosFrom 1 n r).map (insert 0)) ++ combosFrom 1 n (r + 1) := by
  obtain ⟨k, rfl⟩ := Nat.exists_eq_add_of_lt hn
  simp only [combosFrom, Nat.sub_zero, Nat.add_sub_cancel_left, zero_add]
  rw [show k + 1 = Nat.succ k from rfl]
  rfl

theorem length_vectorGrade (n r : ℕ) (M : GA) :
    (vectorGrade n r M).length = Nat.choose n r := by
  rw [vectorGrade, List.length_map, length_combosFrom, Nat.sub_zero]

/-- Assembly of a multivector from an enumeration zipped against the
pointwise values of a function along the enumeration recovers the function
on the enumerated blades and 0 elsewhere. -/
theorem assembleGA_map (L : List (Finset ℕ)) (f : Finset ℕ → ℚ) (S : Finset ℕ) :
    assembleGA L (L.map f) S = if S ∈ L then f S else 0 := by
  induction L with
  | nil => simp [assembleGA]
  | cons X t ih =>
      by_cases hXS : X = S
      · subst hXS
        simp [assembleGA, List.find?_cons, List.mem_cons]
      · have h1 : assembleGA (X :: t) ((X :: t).map f) S
            = assembleGA t (t.map f) S := by
          simp only [assembleGA, List.map_cons, List.zip_cons_cons,
            List.find?_cons]
          rw [show (decide ((X, f X).1 = S)) = false by simp [hXS]]
        rw [h1, ih]
        have hSX : ¬ S = X := fun h => hXS h.symm
        simp [List.mem_cons, hSX]

/-! ### Support and grade behaviour of the wedge product -/

theorem vecG_suppIn (n : ℕ) (u : ℕ → ℚ) : SuppIn n (vecG n u) := by
  intro S hS
  rw [vecG, if_neg (fun h => hS h.2)]

theorem vecG_homog (n : ℕ) (u : ℕ → ℚ) : Homog 1 (vecG n u) := by
  intro S hS
  rw [vecG, if_neg (fun h => hS h.1)]

theorem gaScalar_suppIn (n : ℕ) (c : ℚ) : SuppIn n (gaScalar c) := by
  intro S hS
  rw [gaScalar, if_neg]
  rintro rfl
  exact hS (Finset.empty_subset _)

theorem gaWedge_suppIn (n : ℕ) (A B : GA) (hA : SuppIn n A) (hB : SuppIn n B) :
    SuppIn n (gaWedge A B) := by
  intro R hR
  rw [gaWedge]
  apply Finset.sum_eq_zero
  intro S hS
  have hSR := Finset.mem_powerset.mp hS
  by_cases h1 : S ⊆ Finset.range n
  · have h2 : ¬ R \ S ⊆ Finset.range n := by
      intro h2
      apply hR
      calc R = S ∪ R \ S := (Finset.union_sdiff_of_subset hSR).symm
        _ ⊆ Finset.range n := Finset.union_subset h1 h2
    rw [hB _ h2, mul_zero]
  · rw [hA _ h1, mul_zero, zero_mul]

theorem gaWedge_homog (a b : ℕ) (A B : GA) (hA : Homog a A) (hB : Homog b B) :
    Homog (a + b) (gaWedge A B) := by
  intro R hR
  rw [gaWedge]
  apply Finset.sum_eq_zero
  intro S hS
  have hSR := Finset.mem_powerset.mp hS
  by_cases h1 : S.card = a
  · have hcards : (R \ S).card + S.card = R.card :=
      Finset.card_sdiff_add_card_eq_card hSR
    have h2 : (R \ S).card ≠ b := by omega
    rw [hB _ h2, mul_zero]
  · rw [hA _ h1, mul_zero, zero_mul]

theorem contractE0_suppIn (n : ℕ) (T : GA) (hT : SuppIn n T) :
    SuppIn n (contractE0 T) := by
  intro S hS
  rw [contractE0]
  split
  · rfl
  · apply hT
    intro h
    exact hS ((Finset.subset_insert 0 S).trans h)

theorem contractE0_homog (r : ℕ) (T : GA) (hr : 1 ≤ r) (hT : Homog r T) :
    Homog (r - 1) (contractE0 T) := by
  intro S hS
  by_cases h0 : 0 ∈ S
  · rw [contractE0, if_pos h0]
  · rw [contractE0, if_neg h0]
    apply hT
    rw [Finset.card_insert_of_not_mem h0]
    omega

/-- A multivector of grade strictly above the dimension of its support
is zero. -/
theorem homog_suppIn_zero (n g : ℕ) (A : GA) (hH : Homog g A)
    (hS : SuppIn n A) (hgn : n < g) : A = 0 := by
  funext S
  show A S = 0
  by_cases hc : S.card = g
  · apply hS
    intro hsub
    have := Finset.card_le_card hsub
    rw [Finset.card_range] at this
    omega
  · exact hH _ hc

/-! ### Expanding a wedge with a grade-1 factor -/

theorem sdiff_erase_eq_singleton (R : Finset ℕ) (i : ℕ) (hi : i ∈ R) :
    R \ R.erase i = {i} := by
  ext x
  simp only [Finset.mem_sdiff, Finset.mem_erase, Finset.mem_singleton]
  constructor
  · rintro ⟨hxR, h⟩
    by_contra hxi
    exact h ⟨hxi, hxR⟩
  · rintro rfl
    exact ⟨hi, fun h => h.1 rfl⟩

theorem vecG_singleton (n : ℕ) (u : ℕ → ℚ) (i : ℕ) (hi : i < n) :
    vecG n u {i} = u i := by
  rw [vecG, if_pos ⟨Finset.card_singleton i, by
    simpa using Finset.mem_range.mpr hi⟩, Finset.sum_singleton]

theorem gaWedge_vec_right (A : GA) (n : ℕ) (u : ℕ → ℚ) (R : Finset ℕ)
    (hR : R ⊆ Finset.range n) :
    gaWedge A (vecG n u) R
      = ∑ i in R, wsign (R.erase i) {i} * A (R.erase i) * u i := by
  rw [gaWedge]
  have himg : R.image R.erase ⊆ R.powerset := by
    intro S hS
    rcases Finset.mem_image.mp hS with ⟨i, _, rfl⟩
    exact Finset.mem_powerset.mpr (Finset.erase_subset _ _)
  have hzero : ∀ S ∈ R.powerset, S ∉ R.image R.erase →
      wsign S (R \ S) * A S * vecG n u (R \ S) = 0 := by
    intro S hS hnot
    have hSR := Finset.mem_powerset.mp hS
    by_cases h1 : (R \ S).card = 1
    · exfalso
      rcases Finset.card_eq_one.mp h1 with ⟨i, hdiff⟩
      have hiR : i ∈ R := by
        have : i ∈ R \ S := hdiff ▸ Finset.mem_singleton_self i
        exact (Finset.mem_sdiff.mp this).1
      have hSe : S = R.erase i := by
        ext x
        simp only [Finset.mem_erase]
        constructor
        · intro hxS
          refine ⟨?_, hSR hxS⟩
          rintro rfl
          have : x ∈ R \ S := hdiff ▸ Finset.mem_singleton_self x
          exact (Finset.mem_sdiff.mp this).2 hxS
        · rintro ⟨hxi, hxR⟩
          by_contra hxS
          have : x ∈ R \ S := Finset.mem_sdiff.mpr ⟨hxR, hxS⟩
          rw [hdiff] at this
          exact hxi (Finset.mem_singleton.mp this)
      exact hnot (Finset.mem_image.mpr ⟨i, hiR, hSe.symm⟩)
    · rw [show vecG n u (R \ S) = 0 from by rw [vecG, if_neg (fun h => h1 h.1)],
        mul_zero]
  rw [← Finset.sum_subset himg hzero]
  have hinj : ∀ i ∈ R, ∀ j ∈ R, R.erase i = R.erase j → i = j := by
    intro i hi j hj h
    by_contra hne
    have : i ∈ R.erase j := Finset.mem_erase.mpr ⟨hne, hi⟩
    rw [← h] at this
    exact (Finset.mem_erase.mp this).1 rfl
  rw [Finset.sum_image hinj]
  apply Finset.sum_congr rfl
  intro i hi
  rw [sdiff_erase_eq_singleton R i hi,
    vecG_singleton n u i (Finset.mem_range.mp (hR hi))]

theorem gaWedge_vec_left (A : GA) (n : ℕ) (u : ℕ → ℚ) (R : Finset ℕ)
    (hR : R ⊆ Finset.range n) :
    gaWedge (vecG n u) A R
      = ∑ i in R, wsign {i} (R.erase i) * u i * A (R.erase i) := by
  rw [gaWedge]
  have himg : R.image (fun i => ({i} : Finset ℕ)) ⊆ R.powerset := by
    intro S hS
    rcases Finset.mem_image.mp hS with ⟨i, hi, rfl⟩
    exact Finset.mem_powerset.mpr (Finset.singleton_subset_iff.mpr hi)
  have hzero : ∀ S ∈ R.powerset, S ∉ R.image (fun i => ({i} : Finset ℕ)) →
      wsign S (R \ S) * vecG n u S * A (R \ S) = 0 := by
    intro S hS hnot
    have hSR := Finset.mem_powerset.mp hS
    by_cases h1 : S.card = 1
    · exfalso
      rcases Finset.card_eq_one.mp h1 with ⟨i, rfl⟩
      exact hnot (Finset.mem_image.mpr
        ⟨i, Finset.singleton_subset_iff.mp hSR, rfl⟩)
    · rw [show vecG n u S = 0 from by rw [vecG, if_neg (fun h => h1 h.1)],
        mul_zero, zero_mul]
  rw [← Finset.sum_subset himg hzero]
  have hinj : ∀ i ∈ R, ∀ j ∈ R, ({i} : Finset ℕ) = {j} → i = j := by
    intro i _ j _ h
    exact Finset.singleton_injective h
  rw [Finset.sum_image hinj]
  apply Finset.sum_congr rfl
  intro i hi
  rw [Finset.sdiff_singleton_eq_erase,
    vecG_singleton n u i (Finset.mem_range.mp (hR hi))]

/-! ### The contraction identity behind fromPrefix

For a grade-r multivector T whose span contains the normalized vector u
(the wedge of u with T vanishes) and with u's first coordinate equal to 1,
wedging the e0-contraction of T with u recovers T up to the sign
(-1)^(r-1). -/

theorem wsign_erase_zero (R : Finset ℕ) (h0R : 0 ∈ R) :
    wsign (R.erase 0) {0} = (-1 : ℚ) ^ (R.card - 1) := by
  rw [wsign]
  congr 1
  have h1 : ∀ s ∈ R.erase 0, (({0} : Finset ℕ).filter (fun t => t < s)).card = 1 := by
    intro s hs
    have hs0 : s ≠ 0 := (Finset.mem_erase.mp hs).1
    rw [Finset.filter_singleton, if_pos (by omega : 0 < s), Finset.card_singleton]
  rw [Finset.sum_congr rfl h1, Finset.sum_const, smul_eq_mul, mul_one,
    Finset.card_erase_of_mem h0R]

theorem wsign_zero_left (R : Finset ℕ) : wsign {0} R = 1 := by
  rw [wsign, Finset.sum_singleton,
    Finset.filter_false_of_mem (fun x _ => by omega), Finset.card_empty,
    pow_zero]

theorem contract_wedge_eq (n r : ℕ) (T : GA) (u : ℕ → ℚ)
    (hn : 0 < n) (hr : 1 ≤ r) (hH : Homog r T) (hS : SuppIn n T)
    (hu0 : u 0 = 1) (hdep : gaWedge (vecG n u) T = 0) :
    gaWedge (contractE0 T) (vecG n u)
      = fun S => (-1 : ℚ) ^ (r - 1) * T S := by
  funext R
  show gaWedge (contractE0 T) (vecG n u) R = (-1 : ℚ) ^ (r - 1) * T R
  by_cases hRsub : R ⊆ Finset.range n
  case neg =>
    rw [gaWedge_suppIn n _ _ (contractE0_suppIn n T hS) (vecG_suppIn n u) R
      hRsub, hS R hRsub, mul_zero]
  case pos =>
  by_cases hRcard : R.card = r
  case neg =>
    have h1 : Homog ((r - 1) + 1) (gaWedge (contractE0 T) (vecG n u)) :=
      gaWedge_homog _ _ _ _ (contractE0_homog r T hr hH) (vecG_homog n u)
    rw [h1 R (by omega), hH R hRcard, mul_zero]
  case pos =>
  by_cases h0R : 0 ∈ R
  · -- Blades containing e0: the single surviving term of the wedge
    -- reproduces T R directly.
    rw [gaWedge_vec_right _ n u R hRsub]
    rw [Finset.sum_eq_single 0 ?side ?notmem]
    case side =>
      intro i hiR hine
      rw [show contractE0 T (R.erase i) = 0 from by
        rw [contractE0, if_pos (Finset.mem_erase.mpr ⟨fun h => hine h.symm, h0R⟩)]]
      rw [mul_zero, zero_mul]
    case notmem =>
      intro h
      exact absurd h0R h
    rw [show contractE0 T (R.erase 0) = T R from by
        rw [contractE0, if_neg (Finset.not_mem_erase 0 R),
          Finset.insert_erase h0R]]
    rw [wsign_erase_zero R h0R, hu0, hRcard, mul_one]
  · -- Blades not containing e0: use the dependency hypothesis at
    -- insert 0 R.
    have hins : insert 0 R ⊆ Finset.range n :=
      Finset.insert_subset_iff.mpr ⟨Finset.mem_range.mpr hn, hRsub⟩
    have hkey := congrFun hdep (insert 0 R)
    rw [gaWedge_vec_left T n u (insert 0 R) hins, Finset.sum_insert h0R,
      Finset.erase_insert h0R, wsign_zero_left, hu0, one_mul, one_mul,
      Pi.zero_apply] at hkey
    have hterm : ∀ i ∈ R,
        wsign {i} ((insert 0 R).erase i) * u i * T ((insert 0 R).erase i)
          = -(((-1 : ℚ) ^ (((R.erase i).filter (fun t => t < i)).card))
              * u i * T (insert 0 (R.erase i))) := by
      intro i hiR
      have hi0 : i ≠ 0 := fun h => h0R (h ▸ hiR)
      have herase : (insert 0 R).erase i = insert 0 (R.erase i) :=
        Finset.erase_insert_of_ne (fun h => hi0 h.symm)
      have h0e : (0 : ℕ) ∉ R.erase i := fun h => h0R (Finset.mem_of_mem_erase h)
      have hws : wsign {i} ((insert 0 R).erase i)
          = -((-1 : ℚ) ^ (((R.erase i).filter (fun t => t < i)).card)) := by
        rw [herase, wsign, Finset.sum_singleton,
          Finset.filter_insert, if_pos (by omega : 0 < i),
          Finset.card_insert_of_not_mem
            (fun h => h0e (Finset.filter_subset _ _ h)),
          pow_succ' (-1 : ℚ)]
        ring
      rw [hws, herase]
      ring
    rw [Finset.sum_congr rfl hterm, Finset.sum_neg_distrib] at hkey
    have hTR : T R = ∑ i in R,
        ((-1 : ℚ) ^ (((R.erase i).filter (fun t => t < i)).card))
          * u i * T (insert 0 (R.erase i)) := by
      linarith [hkey]
    rw [gaWedge_vec_right _ n u R hRsub]
    have hterm2 : ∀ i ∈ R,
        wsign (R.erase i) {i} * contractE0 T (R.erase i) * u i
          = (-1 : ℚ) ^ (r - 1)
            * (((-1 : ℚ) ^ (((R.erase i).filter (fun t => t < i)).card))
               * u i * T (insert 0 (R.erase i))) := by
      intro i hiR
      have hi0 : i ≠ 0 := fun h => h0R (h ▸ hiR)
      have h0e : (0 : ℕ) ∉ R.erase i := fun h => h0R (Finset.mem_of_mem_erase h)
      have hcE : contractE0 T (R.erase i) = T (insert 0 (R.erase i)) := by
        rw [contractE0, if_neg h0e]
      have hws : wsign (R.erase i) {i}
          = (-1 : ℚ) ^ (((R.erase i).filter (fun s => i < s)).card) := by
        rw [wsign]
        congr 1
        rw [Finset.card_filter]
        apply Finset.sum_congr rfl
        intro s _
        rw [Finset.filter_singleton]
        by_cases h : i < s
        · rw [if_pos h, if_pos h, Finset.card_singleton]
        · rw [if_neg h, if_neg h, Finset.card_empty]
      have hsplit : ((R.erase i).filter (fun s => i < s)).card
          + ((R.erase i).filter (fun t => t < i)).card = r - 1 := by
        have hun : (R.erase i).filter (fun s => i < s)
            ∪ (R.erase i).filter (fun t => t < i) = R.erase i := by
          ext x
          simp only [Finset.mem_union, Finset.mem_filter]
          constructor
          · rintro (⟨hx, _⟩ | ⟨hx, _⟩) <;> exact hx
          · intro hx
            have hxi : x ≠ i := (Finset.mem_erase.mp hx).1
            rcases lt_or_gt_of_ne hxi with h | h
            · right; exact ⟨hx, h⟩
            · left; exact ⟨hx, h⟩
        have hdisj : Disjoint ((R.erase i).filter (fun s => i < s))
            ((R.erase i).filter (fun t => t < i)) := by
          rw [Finset.disjoint_left]
          intro x hx1 hx2
          have h1 := (Finset.mem_filter.mp hx1).2
          have h2 := (Finset.mem_filter.mp hx2).2
          omega
        have hcu := Finset.card_union_of_disjoint hdisj
        rw [hun, Finset.card_erase_of_mem hiR, hRcard] at hcu
        omega
      have hsign : (-1 : ℚ) ^ (((R.erase i).filter (fun s => i < s)).card)
          = (-1 : ℚ) ^ (r - 1)
            * (-1 : ℚ) ^ (((R.erase i).filter (fun t => t < i)).card) := by
        have h2 : ((-1 : ℚ) ^ (((R.erase i).filter (fun t => t < i)).card))
            * ((-1 : ℚ) ^ (((R.erase i).filter (fun t => t < i)).card)) = 1 := by
          rw [← pow_add, ← two_mul, pow_mul]
          norm_num
        calc (-1 : ℚ) ^ (((R.erase i).filter (fun s => i < s)).card)
            = (-1 : ℚ) ^ (((R.erase i).filter (fun s => i < s)).card)
              * (((-1 : ℚ) ^ (((R.erase i).filter (fun t => t < i)).card))
                 * ((-1 : ℚ) ^ (((R.erase i).filter (fun t => t < i)).card))) := by
              rw [h2, mul_one]
          _ = ((-1 : ℚ) ^ (((R.erase i).filter (fun s => i < s)).card
                + ((R.erase i).filter (fun t => t < i)).card))
              * ((-1 : ℚ) ^ (((R.erase i).filter (fun t => t < i)).card)) := by
              rw [pow_add]; ring
          _ = (-1 : ℚ) ^ (r - 1)
              * (-1 : ℚ) ^ (((R.erase i).filter (fun t => t < i)).card) := by
              rw [hsplit]
      rw [hcE, hws, hsign]
      ring
    rw [Finset.sum_congr rfl hterm2, ← Finset.mul_sum, ← hTR]

/-! ### The leading slice structure of the grade vector -/

theorem not_mem_zero_combosFrom_one (n r : ℕ) (S : Finset ℕ)
    (hS : S ∈ combosFrom 1 n r) : 0 ∉ S := by
  intro h0
  have := ((mem_combosAux (n - 1) 1 r S).mp hS).2 0 h0
  omega

theorem vectorGrade_split (n r : ℕ) (M : GA) (hn : 0 < n) :
    vectorGrade n (r + 1) M
      = ((combosFrom 1 n r).map (fun S => M (insert 0 S)))
        ++ (combosFrom 1 n (r + 1)).map M := by
  rw [vectorGrade, combosFrom_zero_succ n r hn, List.map_append, List.map_map]
  rfl

theorem rankPrefix_eq_map (n r : ℕ) (M : GA) (hn : 0 < n) :
    rankPrefixG n (r + 1) M
      = (combosFrom 1 n r).map (fun S => M (insert 0 S)) := by
  rw [rankPrefixG, vectorGrade_split n r M hn]
  have hlen : ((combosFrom 1 n r).map (fun S => M (insert 0 S))).length
      = Nat.choose (n - 1) ((r + 1) - 1) := by
    simp [length_combosFrom]
  rw [← hlen, List.take_left]

/-! ## Claim C3: construction from vals -/

theorem fromVals_never_nil_aux (n : ℕ) (vals : List (List ℚ)) :
    ∀ acc : GA, ¬ gaIsNil n acc →
      ¬ gaIsNil n (vals.foldl
        (fun acc val =>
          let next := gaWedge acc (vecL n val)
          if gaIsNil n next then acc else next)
        acc) := by
  induction vals with
  | nil => intro acc h; exact h
  | cons v t ih =>
      intro acc h
      rw [List.foldl_cons]
      by_cases hnil : gaIsNil n (gaWedge acc (vecL n v))
      · simpa [hnil] using ih acc h
      · simpa [hnil] using ih _ hnil

/-- C3: fromVals accumulates the wedge of the promoted vals left to right;
a val whose wedge with the accumulation is the nil element is discarded and
the previous accumulation kept; the empty list of vals yields the
scalar-unit element; and the accumulation is total and never nil (no error
is raised, redundant vals are silently absorbed). -/
theorem fromVals_spec (n : ℕ) :
    fromValsG n [] = gaScalar 1
    ∧ (∀ vals val, fromValsG n (vals ++ [val])
        = if gaIsNil n (gaWedge (fromValsG n vals) (vecL n val))
          then fromValsG n vals
          else gaWedge (fromValsG n vals) (vecL n val))
    ∧ (∀ vals, ¬ gaIsNil n (fromValsG n vals)) := by
  refine ⟨rfl, ?_, ?_⟩
  · intro vals val
    rw [fromValsG, List.foldl_append]
    rfl
  · intro vals
    apply fromVals_never_nil_aux
    intro h
    have h1 := h ∅ (Finset.empty_mem_powerset _)
    rw [gaScalar, if_pos rfl] at h1
    exact one_ne_zero h1

/-! ## Claim C7: the rank prefix is the leading slice of the grade vector -/

/-- C7: for a temperament of rank r over a basis of size n (1 <= r <= n),
rankPrefix(r) has exactly C(n-1, r-1) entries and is precisely the leading
slice of the grade-r component vector; the slice consists of the components
of the blades containing the first basis factor, and the remaining entries
are the blades avoiding it. -/
theorem rankPrefix_spec (n r : ℕ) (M : GA) (hr : 1 ≤ r) (hrn : r ≤ n) :
    (rankPrefixG n r M).length = Nat.choose (n - 1) (r - 1)
    ∧ vectorGrade n r M = rankPrefixG n r M ++ (combosFrom 1 n r).map M
    ∧ rankPrefixG n r M = (combosFrom 1 n (r - 1)).map (fun S => M (insert 0 S)) := by
  obtain ⟨r', rfl⟩ : ∃ r', r = r' + 1 := ⟨r - 1, by omega⟩
  have hn : 0 < n := by omega
  have hmap := rankPrefix_eq_map n r' M hn
  refine ⟨?_, ?_, ?_⟩
  · rw [hmap]
    simp [length_combosFrom]
  · rw [vectorGrade_split n r' M hn, hmap]
  · simpa using hmap

/-- Witness for C7 at n = 3, r = 2 on a concrete multivector: the prefix is
the first C(2,1) = 2 grade-2 components. -/
theorem rankPrefix_spec_witness :
    (1 ≤ 2 ∧ 2 ≤ 3)
    ∧ (rankPrefixG 3 2 (fun S => if S = {0, 1} then (7 : ℚ) else if S = {0, 2} then 11 else if S = {1, 2} then 13 else 0)).length = Nat.choose 2 1 := by
  refine ⟨⟨by decide, by decide⟩, ?_⟩
  exact (rankPrefix_spec 3 2 _ (by decide) (by decide)).1

/-! ### Assembling the padded wedgie of fromPrefix -/

theorem padded_prefix_eq (n r2 : ℕ) (T : GA) (hn : 0 < n) :
    paddedWedgie n (r2 + 2) (rankPrefixG n (r2 + 2) T)
      = (combosFrom 0 n (r2 + 1)).map (contractE0 T) := by
  obtain ⟨n1, rfl⟩ : ∃ n1, n = n1 + 1 := ⟨n - 1, by omega⟩
  have hmap := rankPrefix_eq_map (n1 + 1) (r2 + 1) T hn
  have hplen : (rankPrefixG (n1 + 1) (r2 + 2) T).length = Nat.choose n1 (r2 + 1) := by
    rw [hmap]
    simp [length_combosFrom]
  have hzeros : Nat.choose (n1 + 1) ((r2 + 2) - 1)
      - (rankPrefixG (n1 + 1) (r2 + 2) T).length = Nat.choose n1 r2 := by
    rw [hplen]
    have hps := Nat.choose_succ_succ n1 r2
    simp only [Nat.succ_eq_add_one] at hps
    simp only [show (r2 + 2) - 1 = r2 + 1 from rfl]
    omega
  rw [paddedWedgie, hzeros, combosFrom_zero_succ (n1 + 1) r2 hn,
    List.map_append, List.map_map]
  congr 1
  · symm
    rw [List.eq_replicate_iff]
    constructor
    · simp [length_combosFrom]
    · intro b hb
      rcases List.mem_map.mp hb with ⟨S, _, rfl⟩
      show contractE0 T (insert 0 S) = 0
      rw [contractE0, if_pos (Finset.mem_insert_self 0 S)]
  · rw [hmap]
    apply List.map_congr_left
    intro S hS
    have h0 : 0 ∉ S := not_mem_zero_combosFrom_one (n1 + 1) (r2 + 1) S hS
    rw [contractE0, if_neg h0]

theorem fromVector_padded_eq_contract (n r2 : ℕ) (T : GA) (hn : 0 < n)
    (hH : Homog (r2 + 2) T) (hS : SuppIn n T) :
    fromVectorG n ((r2 + 2) - 1)
        (paddedWedgie n (r2 + 2) (rankPrefixG n (r2 + 2) T))
      = contractE0 T := by
  funext S
  show fromVectorG n (r2 + 1)
      (paddedWedgie n (r2 + 2) (rankPrefixG n (r2 + 2) T)) S = contractE0 T S
  rw [fromVectorG, padded_prefix_eq n r2 T hn, assembleGA_map]
  by_cases hmem : S ∈ combosFrom 0 n (r2 + 1)
  · rw [if_pos hmem]
  · rw [if_neg hmem]
    by_cases h0 : 0 ∈ S
    · rw [contractE0, if_pos h0]
    · rw [contractE0, if_neg h0]
      by_contra hne
      have hne' : T (insert 0 S) ≠ 0 := fun h => hne h.symm
      have hcard : (insert 0 S).card = r2 + 2 := by
        by_contra hc
        exact hne' (hH _ hc)
      have hsub : insert 0 S ⊆ Finset.range n := by
        by_contra hc
        exact hne' (hS _ hc)
      apply hmem
      rw [mem_combosFrom 0 n (r2 + 1) S (by omega)]
      constructor
      · rw [Finset.card_insert_of_not_mem h0] at hcard
        omega
      · intro x hx
        have := hsub (Finset.mem_insert_of_mem hx)
        exact ⟨Nat.zero_le x, Finset.mem_range.mp this⟩

/-! ### Components of a rescaled multivector and canonize under negation -/

theorem mem_allComponents (n : ℕ) (M : GA) (q : ℚ)
    (hq : q ∈ allComponents n M) : ∃ S, q = M S := by
  rw [allComponents] at hq
  rcases List.mem_flatMap.mp hq with ⟨r, _, hq2⟩
  rcases List.mem_map.mp hq2 with ⟨S, _, rfl⟩
  exact ⟨S, rfl⟩

theorem allComponents_smul (n : ℕ) (c : ℚ) (M : GA) :
    allComponents n (fun S => c * M S)
      = (allComponents n M).map (fun q => c * q) := by
  simp [allComponents, vectorGrade, List.map_flatMap, List.map_map]
  rfl

theorem intComponents_congr_one (n : ℕ) (M : GA) :
    intComponents n (fun S => (1 : ℚ) * M S) = intComponents n M := by
  congr 1
  funext S
  rw [one_mul]

theorem intComponents_neg (n : ℕ) (M : GA)
    (hInt : ∀ S, ∃ z : ℤ, M S = (z : ℚ)) :
    intComponents n (fun S => (-1 : ℚ) * M S)
      = (intComponents n M).map (fun z => -z) := by
  rw [intComponents, allComponents_smul, intComponents, List.map_map,
    List.map_map]
  apply List.map_congr_left
  intro q hq
  rcases mem_allComponents n M q hq with ⟨S, rfl⟩
  rcases hInt S with ⟨z, hz⟩
  show round ((-1 : ℚ) * M S) = -(round (M S))
  rw [hz]
  rw [show ((-1 : ℚ) * (z : ℚ)) = ((-z : ℤ) : ℚ) by push_cast; ring]
  rw [round_intCast, round_intCast]

theorem gcdFold_map_neg (v : List ℤ) : ∀ a : ℕ,
    gcdFold a (v.map (fun z => -z)) = gcdFold a v := by
  induction v with
  | nil => intro a; rfl
  | cons x t ih =>
      intro a
      rw [List.map_cons, gcdFold_cons, gcdFold_cons, Int.natAbs_neg]
      exact ih _

theorem firstSign_map_neg (v : List ℤ) :
    firstSign (v.map (fun z => -z)) = -(firstSign v) := by
  induction v with
  | nil => simp [firstSign]
  | cons x t ih =>
      by_cases hx : x = 0
      · subst hx
        rw [List.map_cons]
        rw [show firstSign ((-(0 : ℤ)) :: t.map (fun z => -z))
            = firstSign (t.map (fun z => -z)) by
          simp [firstSign, List.find?_cons]]
        rw [show firstSign ((0 : ℤ) :: t) = firstSign t by
          simp [firstSign, List.find?_cons]]
        exact ih
      · rw [List.map_cons]
        rw [show firstSign ((-x) :: t.map (fun z => -z)) = (-x).sign by
          simp [firstSign, List.find?_cons, hx]]
        rw [show firstSign (x :: t) = x.sign by
          simp [firstSign, List.find?_cons, hx]]
        exact Int.sign_neg x

theorem canonize_neg (v : List ℤ) :
    canonize (v.map (fun z => -z)) = canonize v := by
  by_cases hg : gcdAll v = 0
  · have hall := (gcdAll_eq_zero_iff v).mp hg
    have hgm : gcdAll (v.map (fun z => -z)) = 0 := by
      rw [gcdAll, gcdFold_map_neg]
      exact hg
    rw [canonize, if_pos hgm, canonize, if_pos hg]
    have h1 : List.map (fun z : ℤ => -z) v = List.map id v :=
      List.map_congr_left (fun c hc => by simp [hall c hc])
    rw [h1, List.map_id]
  · have hgm : gcdAll (v.map (fun z => -z)) = gcdAll v := by
      rw [gcdAll, gcdFold_map_neg]
      rfl
    rw [canonize, if_neg (by rw [hgm]; exact hg), canonize, if_neg hg,
      firstSign_map_neg, hgm, List.map_map]
    apply List.map_congr_left
    intro c _
    show divSign (-(firstSign v)) (gcdAll v) (-c)
        = divSign (firstSign v) (gcdAll v) c
    rw [divSign, divSign, neg_mul_neg]

/-! ## Claim C2: round trip of rank-prefix compression -/

/-- C2: for a temperament of rank r between 2 and 4 (any rank at most the
basis size), homogeneous of grade r with integer components, consistent
with its basis in the exact sense that the normalized just-intonation
vector jip/jip[0] lies in the val span of the wedgie (its wedge with the
value vanishes; the source's rounding step absorbs the floating-point
deviation from this exact condition), reconstructing via
fromPrefix(r, rankPrefix(r), jip) and canonizing yields exactly the
canonized original value.  Instantiated at an already canonized temperament
this is the spec's round trip, since canonize is idempotent. -/
theorem fromPrefix_roundTrip (n r : ℕ) (T : GA) (jip : ℕ → ℚ)
    (hr2 : 2 ≤ r) (hr4 : r ≤ 4) (hrn : r ≤ n)
    (hH : Homog r T) (hS : SuppIn n T)
    (hInt : ∀ S, ∃ z : ℤ, T S = (z : ℚ))
    (hj0 : jip 0 ≠ 0)
    (hcons : gaWedge (vecG n (jipNorm jip)) T = 0) :
    canonize (fromPrefixInt n r (rankPrefixG n r T) jip)
      = canonize (intComponents n T) := by
  obtain ⟨r2, rfl⟩ : ∃ r2, r = r2 + 2 := ⟨r - 2, by omega⟩
  have hn : 0 < n := by omega
  have hu0 : jipNorm jip 0 = 1 := div_self hj0
  have hraw : fromPrefixRaw n (r2 + 2) (rankPrefixG n (r2 + 2) T) jip
      = fun S => (-1 : ℚ) ^ (r2 + 1) * T S := by
    rw [fromPrefixRaw, fromVector_padded_eq_contract n r2 T hn hH hS]
    exact contract_wedge_eq n (r2 + 2) T (jipNorm jip) hn (by omega) hH hS
      hu0 hcons
  rw [fromPrefixInt, hraw]
  rcases Nat.even_or_odd (r2 + 1) with he | ho
  · have h1 : (fun S => (-1 : ℚ) ^ (r2 + 1) * T S)
        = fun S => (1 : ℚ) * T S := by
      funext S
      rw [he.neg_one_pow]
    rw [h1, intComponents_congr_one]
  · have h1 : (fun S => (-1 : ℚ) ^ (r2 + 1) * T S)
        = fun S => (-1 : ℚ) * T S := by
      funext S
      rw [ho.neg_one_pow]
    rw [h1, intComponents_neg n T hInt, canonize_neg]

/-- Witness for C2: the rank-2 wedgie 3 e01 over a 2-element basis with
just-intonation point (1, 2) satisfies every hypothesis, and the round trip
through fromPrefix reproduces its canonical form. -/
theorem fromPrefix_roundTrip_witness :
    Homog 2 (fun S => if S = ({0, 1} : Finset ℕ) then (3 : ℚ) else 0)
    ∧ ((fun i : ℕ => if i = 0 then (1 : ℚ) else 2) 0 ≠ 0)
    ∧ canonize (fromPrefixInt 2 2
        (rankPrefixG 2 2 (fun S => if S = ({0, 1} : Finset ℕ) then (3 : ℚ) else 0))
        (fun i : ℕ => if i = 0 then (1 : ℚ) else 2))
      = canonize (intComponents 2
          (fun S => if S = ({0, 1} : Finset ℕ) then (3 : ℚ) else 0)) := by
  have hH : Homog 2 (fun S => if S = ({0, 1} : Finset ℕ) then (3 : ℚ) else 0) := by
    intro S hc
    by_cases h1 : S = ({0, 1} : Finset ℕ)
    · subst h1
      exact absurd (by decide : ({0, 1} : Finset ℕ).card = 2) hc
    · simp [h1]
  have hS : SuppIn 2 (fun S => if S = ({0, 1} : Finset ℕ) then (3 : ℚ) else 0) := by
    intro S hsub
    by_cases h1 : S = ({0, 1} : Finset ℕ)
    · subst h1
      exact absurd (by decide : ({0, 1} : Finset ℕ) ⊆ Finset.range 2) hsub
    · simp [h1]
  have hInt : ∀ S, ∃ z : ℤ,
      (fun S => if S = ({0, 1} : Finset ℕ) then (3 : ℚ) else 0) S = (z : ℚ) := by
    intro S
    by_cases h1 : S = ({0, 1} : Finset ℕ)
    · exact ⟨3, by simp [h1]⟩
    · exact ⟨0, by simp [h1]⟩
  have hj0 : (fun i : ℕ => if i = 0 then (1 : ℚ) else 2) 0 ≠ 0 := by norm_num
  have hcons : gaWedge
      (vecG 2 (jipNorm (fun i : ℕ => if i = 0 then (1 : ℚ) else 2)))
      (fun S => if S = ({0, 1} : Finset ℕ) then (3 : ℚ) else 0) = 0 := by
    apply homog_suppIn_zero 2 3
    · exact gaWedge_homog 1 2 _ _ (vecG_homog 2 _) hH
    · exact gaWedge_suppIn 2 _ _ (vecG_suppIn 2 _) hS
    · omega
  exact ⟨hH, hj0,
    fromPrefix_roundTrip 2 2 _ _ (le_refl 2) (by omega) (le_refl 2)
      hH hS hInt hj0 hcons⟩

/-! ### Grade and support through the constrained-tuning pipeline -/

theorem dualN_suppIn (n : ℕ) (T : GA) : SuppIn n (dualN n T) := by
  intro S hS
  rw [dualN, if_neg hS]

theorem dualN_homog (n r : ℕ) (T : GA) (hH : Homog r T) :
    Homog (n - r) (dualN n T) := by
  intro S hc
  rw [dualN]
  by_cases hsub : S ⊆ Finset.range n
  · rw [if_pos hsub]
    have hcs : S.card ≤ n := by
      have := Finset.card_le_card hsub
      rwa [Finset.card_range] at this
    have hcd : (Finset.range n \ S).card = n - S.card := by
      rw [Finset.card_sdiff hsub, Finset.card_range]
    have : (Finset.range n \ S).card ≠ r := by
      rw [hcd]
      omega
    rw [hH _ this, mul_zero]
  · rw [if_neg hsub]

theorem promoteP_suppIn (n : ℕ) (weights : ℕ → ℚ) (T : GA) :
    SuppIn (n + 1) (promoteP n weights T) := by
  intro S hS
  rw [promoteP, if_pos (Or.inr hS)]

theorem promoteP_homog (n r : ℕ) (weights : ℕ → ℚ) (T : GA)
    (hH : Homog r T) : Homog (n - r) (promoteP n weights T) := by
  intro S hc
  rw [promoteP]
  by_cases hcond : 0 ∈ S ∨ ¬ S ⊆ Finset.range (n + 1)
  · rw [if_pos hcond]
  · rw [if_neg hcond]
    push_neg at hcond
    obtain ⟨h0, _⟩ := hcond
    have hinj : Set.InjOn (fun i => i - 1) S := by
      intro a ha b hb hab
      have ha0 : a ≠ 0 := fun h => h0 (h ▸ ha)
      have hb0 : b ≠ 0 := fun h => h0 (h ▸ hb)
      simp only at hab
      omega
    have hcard : (S.image (fun i => i - 1)).card = S.card :=
      Finset.card_image_of_injOn hinj
    have : (S.image (fun i => i - 1)).card ≠ n - r := by
      rw [hcard]
      exact hc
    rw [dualN_homog n r T hH _ this, mul_zero]

theorem ctePlane_homog (n : ℕ) (jip weights m : ℕ → ℚ) :
    Homog 1 (ctePlane n jip weights m) := by
  rw [ctePlane]
  exact vecG_homog _ _

theorem ctePlane_suppIn (n : ℕ) (jip weights m : ℕ → ℚ) :
    SuppIn (n + 1) (ctePlane n jip weights m) := by
  rw [ctePlane]
  exact vecG_suppIn _ _

theorem cteFold_homog_supp (n : ℕ) (jip weights : ℕ → ℚ)
    (cs : List (ℕ → ℚ)) :
    ∀ (acc : GA) (g : ℕ), Homog g acc → SuppIn (n + 1) acc →
      Homog (g + cs.length)
          (cs.foldl (fun acc m => gaWedge acc (ctePlane n jip weights m)) acc)
      ∧ SuppIn (n + 1)
          (cs.foldl (fun acc m => gaWedge acc (ctePlane n jip weights m)) acc) := by
  induction cs with
  | nil =>
      intro acc g hH hS
      simpa using ⟨hH, hS⟩
  | cons m t ih =>
      intro acc g hH hS
      rw [List.foldl_cons]
      have h1 : Homog (g + 1) (gaWedge acc (ctePlane n jip weights m)) :=
        gaWedge_homog g 1 _ _ hH (ctePlane_homog n jip weights m)
      have h2 : SuppIn (n + 1) (gaWedge acc (ctePlane n jip weights m)) :=
        gaWedge_suppIn _ _ _ hS (ctePlane_suppIn n jip weights m)
      have hrec := ih _ (g + 1) h1 h2
      constructor
      · rw [List.length_cons, show g + (t.length + 1) = (g + 1) + t.length by
          omega]
        exact hrec.1
      · exact hrec.2

/-! ### Non-invertibility in the projective algebra -/

/-- An element supported entirely on blades containing the null basis
vector e0 has no inverse: the scalar part of any product with it vanishes. -/
theorem gaMul_ne_unit (d : ℕ) (A : GA)
    (h : ∀ S, A S ≠ 0 → (0 : ℕ) ∈ S) : ¬ gaInvertible d A := by
  rintro ⟨B, hB⟩
  have h0 := congrFun hB ∅
  rw [gaScalar, if_pos rfl] at h0
  have hz : gaMul d A B ∅ = 0 := by
    rw [gaMul]
    apply Finset.sum_eq_zero
    intro S _
    apply Finset.sum_eq_zero
    intro U _
    by_cases hd : symmDiff S U = ∅
    · rw [if_pos hd]
      by_cases hA : A S = 0
      · rw [hA, mul_zero, zero_mul]
      · have hUS : U = S := by
          have := symmDiff_eq_bot.mp (by simpa using hd)
          exact this.symm
        subst hUS
        rw [Finset.inter_self, pgaMetric, if_pos (h U hA), mul_zero,
          zero_mul, zero_mul]
    · rw [if_neg hd]
  rw [hz] at h0
  exact zero_ne_one h0

/-! ## Claim C4: over-constrained tuning fails -/

/-- C4: for a temperament of rank r (a grade-r value), supplying more than
r eigenmonzo constraints makes the element that calculateCTE must invert
either zero or a multiple of the null-containing pseudoscalar of the
projective algebra, so it has no inverse and the engine's inverse (hence
getMapping) throws instead of returning a mapping. -/
theorem cte_overconstrained (n r : ℕ) (T : GA) (jip weights : ℕ → ℚ)
    (cs : List (ℕ → ℚ)) (hH : Homog r T) (_hS : SuppIn n T)
    (hk : r < cs.length) :
    ¬ gaInvertible (n + 1) (cteBlade n jip weights T cs) := by
  apply gaMul_ne_unit
  intro S hSne
  have hfold := cteFold_homog_supp n jip weights cs (promoteP n weights T)
    (n - r) (promoteP_homog n r weights T hH) (promoteP_suppIn n weights T)
  have hcard : S.card = (n - r) + cs.length := by
    by_contra hc
    exact hSne (hfold.1 S hc)
  have hsub : S ⊆ Finset.range (n + 1) := by
    by_contra hc
    exact hSne (hfold.2 S hc)
  have hge : n + 1 ≤ S.card := by omega
  have hSeq : S = Finset.range (n + 1) :=
    Finset.eq_of_subset_of_card_le hsub (by rw [Finset.card_range]; exact hge)
  rw [hSeq]
  exact Finset.mem_range.mpr (by omega)

/-- Witness for C4: the rank-1 temperament 12 e0 + 19 e1 over a 2-element
basis with two eigenmonzo constraints (the two basis factors) satisfies the
hypotheses, and the element calculateCTE would invert is non-invertible. -/
theorem cte_overconstrained_witness :
    Homog 1 (fun S => if S = ({0} : Finset ℕ) then (12 : ℚ)
      else if S = ({1} : Finset ℕ) then 19 else 0)
    ∧ (1 : ℕ) < 2
    ∧ ¬ gaInvertible 3 (cteBlade 2
        (fun i => if i = 0 then (7 : ℚ)/10 else 11/10)
        (fun _ => 1)
        (fun S => if S = ({0} : Finset ℕ) then (12 : ℚ)
          else if S = ({1} : Finset ℕ) then 19 else 0)
        [fun i => if i = 0 then (1 : ℚ) else 0,
         fun i => if i = 1 then (1 : ℚ) else 0]) := by
  have hH : Homog 1 (fun S => if S = ({0} : Finset ℕ) then (12 : ℚ)
      else if S = ({1} : Finset ℕ) then 19 else 0) := by
    intro S hc
    by_cases h1 : S = ({0} : Finset ℕ)
    · subst h1
      exact absurd (by decide : ({0} : Finset ℕ).card = 1) hc
    · by_cases h2 : S = ({1} : Finset ℕ)
      · subst h2
        exact absurd (by decide : ({1} : Finset ℕ).card = 1) hc
      · simp [h1, h2]
  have hS : SuppIn 2 (fun S => if S = ({0} : Finset ℕ) then (12 : ℚ)
      else if S = ({1} : Finset ℕ) then 19 else 0) := by
    intro S hsub
    by_cases h1 : S = ({0} : Finset ℕ)
    · subst h1
      exact absurd (by decide : ({0} : Finset ℕ) ⊆ Finset.range 2) hsub
    · by_cases h2 : S = ({1} : Finset ℕ)
      · subst h2
        exact absurd (by decide : ({1} : Finset ℕ) ⊆ Finset.range 2) hsub
      · simp [h1, h2]
  exact ⟨hH, by decide,
    cte_overconstrained 2 1 _ _ _ _ hH hS (by decide)⟩

/-! ## Claim C5: the pure-equave purifier -/

theorem getD_map_mul (f : ℚ → ℚ) (hf : f 0 = 0) (l : List ℚ) :
    ∀ i : ℕ, (l.map f).getD i 0 = f (l.getD i 0) := by
  intro i
  induction l generalizing i with
  | nil => simp [hf]
  | cons x t ih =>
      cases i with
      | zero => simp
      | succ j => simpa using ih j

/-- C5: with temperEquaves unset, both getMapping variants return the
least-squares mapping (whichever core the constraints select) rescaled by
the single purifier factor jip[0] / mapping[0]; the first component of the
result is exactly jip[0] (i.e. the dot with the equave monzo is the true
logarithmic equave size) and every component is the corresponding core
component times that same factor. -/
theorem pureEquave_spec (opts : TuningOpts) (jip teCore cteCore : List ℚ)
    (toPrime : List ℚ → List ℚ)
    (hte : opts.temperEquaves = false)
    (hpm : opts.primeMapping = false)
    (h0 : (if opts.constraints.isEmpty then teCore else cteCore).getD 0 0 ≠ 0) :
    freeGetMapping opts jip teCore cteCore
        = Except.ok (purify jip (if opts.constraints.isEmpty then teCore else cteCore))
    ∧ temperamentGetMapping opts jip teCore cteCore toPrime
        = Except.ok (purify jip (if opts.constraints.isEmpty then teCore else cteCore))
    ∧ (purify jip (if opts.constraints.isEmpty then teCore else cteCore)).getD 0 0
        = jip.getD 0 0
    ∧ ∀ i : ℕ,
        (purify jip (if opts.constraints.isEmpty then teCore else cteCore)).getD i 0
          = (if opts.constraints.isEmpty then teCore else cteCore).getD i 0
            * (jip.getD 0 0
               / (if opts.constraints.isEmpty then teCore else cteCore).getD 0 0) := by
  set m := if opts.constraints.isEmpty then teCore else cteCore with hm
  have hf : (fun c => c * (jip.getD 0 0 / m.getD 0 0)) 0 = 0 := by
    simp
  have hget : ∀ i : ℕ, (purify jip m).getD i 0
      = m.getD i 0 * (jip.getD 0 0 / m.getD 0 0) :=
    fun i => getD_map_mul _ hf m i
  refine ⟨?_, ?_, ?_, hget⟩
  · simp [freeGetMapping, hpm, hte, hm]
  · simp [temperamentGetMapping, hpm, hte, hm]
  · rw [hget 0, mul_comm, div_mul_cancel₀ _ h0]

/-- Witness for C5 with the unconstrained core [4/5, 6/7] and
just-intonation point [2/3, 1/2]: the purified first component is 2/3. -/
theorem pureEquave_spec_witness :
    ((if ([] : List (List ℚ)).isEmpty then [(4 : ℚ)/5, 6/7] else [1]).getD 0 0 ≠ 0)
    ∧ (purify [(2 : ℚ)/3, 1/2]
        (if ([] : List (List ℚ)).isEmpty then [(4 : ℚ)/5, 6/7] else [1])).getD 0 0
      = ([(2 : ℚ)/3, 1/2]).getD 0 0 := by
  have h := pureEquave_spec ⟨false, false, []⟩ [2/3, 1/2] [4/5, 6/7] [1] id
    rfl rfl (by norm_num)
  exact ⟨by norm_num, h.2.2.1⟩

/-! ## Claim C10: primeMapping handling -/

/-- C10: FreeTemperament.getMapping reports the error "Free temperaments
cannot be interpreted as primes" whenever primeMapping is set, before any
mapping is computed (the check precedes the core selection in the model as
in the source), whereas Temperament.getMapping accepts primeMapping and
returns the (purified) mapping converted through subgroup.toPrimeMapping. -/
theorem primeMapping_spec :
    (∀ (opts : TuningOpts) (jip teCore cteCore : List ℚ),
        opts.primeMapping = true →
        freeGetMapping opts jip teCore cteCore
          = Except.error "Free temperaments cannot be interpreted as primes")
    ∧ (∀ (opts : TuningOpts) (jip teCore cteCore : List ℚ)
        (toPrime : List ℚ → List ℚ),
        opts.primeMapping = true →
        temperamentGetMapping opts jip teCore cteCore toPrime
          = Except.ok (toPrime
              (if opts.temperEquaves
               then (if opts.constraints.isEmpty then teCore else cteCore)
               else purify jip
                 (if opts.constraints.isEmpty then teCore else cteCore)))) := by
  constructor
  · intro opts jip te cte hpm
    simp [freeGetMapping, hpm]
  · intro opts jip te cte toPrime hpm
    simp [temperamentGetMapping, hpm]

/-- Witness for C10 at concrete inputs: the free variant errors and the
subgroup variant succeeds with the converted mapping. -/
theorem primeMapping_spec_witness :
    freeGetMapping ⟨false, true, []⟩ [1] [1] [1]
        = Except.error "Free temperaments cannot be interpreted as primes"
    ∧ temperamentGetMapping ⟨false, true, []⟩ [1] [1] [1] id
        = Except.ok (id (if (false : Bool)
            then (if ([] : List (List ℚ)).isEmpty then [(1 : ℚ)] else [1])
            else purify [1] (if ([] : List (List ℚ)).isEmpty then [(1 : ℚ)] else [1]))) := by
  exact ⟨primeMapping_spec.1 ⟨false, true, []⟩ [1] [1] [1] rfl,
    primeMapping_spec.2 ⟨false, true, []⟩ [1] [1] [1] id rfl⟩

/-! ## Claim C9: the generator returned by periodGenerator -/

theorem mmodQ_nonneg (a b : ℚ) (hb : 0 < b) : 0 ≤ mmodQ a b := by
  rw [mmodQ, sub_nonneg, mul_comm]
  exact (le_div_iff₀ hb).mp (Int.floor_le (a / b))

theorem mmodQ_eq_fract (a b : ℚ) (hb : b ≠ 0) :
    mmodQ a b = b * Int.fract (a / b) := by
  rw [mmodQ, Int.fract, mul_sub, mul_div_cancel₀ _ hb]

/-- C9: periodGenerator (in nats) returns the generator
min(g mod period, (-g) mod period), which always lies between 0 and half
the period when the period is positive. -/
theorem periodGenerator_spec (mapping : List ℚ) (numPeriods : ℚ)
    (genMonzo : List ℚ)
    (hp : 0 < (periodGeneratorNats mapping numPeriods genMonzo).1) :
    (periodGeneratorNats mapping numPeriods genMonzo).2
        = min (mmodQ (dotQ mapping genMonzo)
                 (periodGeneratorNats mapping numPeriods genMonzo).1)
              (mmodQ (-(dotQ mapping genMonzo))
                 (periodGeneratorNats mapping numPeriods genMonzo).1)
    ∧ 0 ≤ (periodGeneratorNats mapping numPeriods genMonzo).2
    ∧ (periodGeneratorNats mapping numPeriods genMonzo).2
        ≤ (periodGeneratorNats mapping numPeriods genMonzo).1 / 2 := by
  set p := (periodGeneratorNats mapping numPeriods genMonzo).1 with hpdef
  set g := dotQ mapping genMonzo with hgdef
  have h2 : (periodGeneratorNats mapping numPeriods genMonzo).2
      = min (mmodQ g p) (mmodQ (-g) p) := rfl
  have hbne : p ≠ 0 := ne_of_gt hp
  refine ⟨h2, ?_, ?_⟩
  · rw [h2]
    exact le_min (mmodQ_nonneg g p hp) (mmodQ_nonneg (-g) p hp)
  · rw [h2]
    by_cases hfr : Int.fract (g / p) = 0
    · have hz : mmodQ g p = 0 := by
        rw [mmodQ_eq_fract g p hbne, hfr, mul_zero]
      calc min (mmodQ g p) (mmodQ (-g) p) ≤ mmodQ g p := min_le_left _ _
        _ = 0 := hz
        _ ≤ p / 2 := by linarith
    · have hsum : mmodQ g p + mmodQ (-g) p = p := by
        rw [mmodQ_eq_fract g p hbne, mmodQ_eq_fract (-g) p hbne, neg_div,
          Int.fract_neg hfr]
        ring
      have hmin : 2 * min (mmodQ g p) (mmodQ (-g) p)
          ≤ mmodQ g p + mmodQ (-g) p := by
        have h1 := min_le_left (mmodQ g p) (mmodQ (-g) p)
        have h2' := min_le_right (mmodQ g p) (mmodQ (-g) p)
        linarith
      rw [hsum] at hmin
      linarith

/-- Witness for C9 with mapping [7/5, 11/5], one period and generator monzo
[0, 1]: the period 7/5 is positive and the generator obeys the bounds. -/
theorem periodGenerator_spec_witness :
    0 < (periodGeneratorNats [(7 : ℚ)/5, 11/5] 1 [0, 1]).1
    ∧ 0 ≤ (periodGeneratorNats [(7 : ℚ)/5, 11/5] 1 [0, 1]).2
    ∧ (periodGeneratorNats [(7 : ℚ)/5, 11/5] 1 [0, 1]).2
        ≤ (periodGeneratorNats [(7 : ℚ)/5, 11/5] 1 [0, 1]).1 / 2 := by
  have hp : 0 < (periodGeneratorNats [(7 : ℚ)/5, 11/5] 1 [0, 1]).1 := by
    norm_num [periodGeneratorNats]
  have h := periodGenerator_spec [(7 : ℚ)/5, 11/5] 1 [0, 1] hp
  exact ⟨hp, h.2.1, h.2.2⟩

/-! ## Claim C6: the rescale search of valJoin/valMeet -/

theorem find?_range'_some (pred : ℕ → Bool) :
    ∀ (cnt s j : ℕ), (List.range' s cnt).find? pred = some j →
      pred j = true ∧ s ≤ j ∧ j < s + cnt
        ∧ ∀ i, s ≤ i → i < j → pred i = false := by
  intro cnt
  induction cnt with
  | zero =>
      intro s j h
      simp [List.range'] at h
  | succ c ih =>
      intro s j h
      rw [List.range'_succ] at h
      cases hps : pred s with
      | true =>
          simp only [List.find?_cons, hps] at h
          have hjs : s = j := Option.some.inj h
          subst hjs
          exact ⟨hps, le_refl s, by omega, fun i h1 h2 => absurd h1 (by omega)⟩
      | false =>
          simp only [List.find?_cons, hps] at h
          obtain ⟨hp, h1, h2, hmin⟩ := ih (s + 1) j h
          refine ⟨hp, by omega, by omega, ?_⟩
          intro i hi1 hi2
          rcases Nat.eq_or_lt_of_le hi1 with heq | hlt
          · rw [← heq]
            exact hps
          · exact hmin i (by omega) hi2

/-- C6 (amended): the rescale step tries the integer multipliers
j = 1, ..., persistence - 1 of the reciprocal of the smallest component
above the threshold: it reports the error mentioning persistence exactly
when no multiplier in that half-open range makes every component round to
an integer within the threshold, and on success it returns the blade scaled
by the first good multiplier with every component rounded to an integer
within the threshold of its scaled value (never a non-integer or an
unchecked result). -/
theorem rescale_spec (blade : List ℚ) (p : ℕ) (t : ℚ) :
    (rescaleBlade blade p t
        = Except.error "Failed to rescale. Try increasing persistence."
      ↔ ∀ j : ℕ, 1 ≤ j → j < p →
          ¬ goodMult blade t (rescaleNorm blade t * (j : ℚ)))
    ∧ (∀ l : List ℤ, rescaleBlade blade p t = Except.ok l →
        ∃ j : ℕ, 1 ≤ j ∧ j < p
          ∧ goodMult blade t (rescaleNorm blade t * (j : ℚ))
          ∧ (∀ j' : ℕ, 1 ≤ j' → j' < j →
              ¬ goodMult blade t (rescaleNorm blade t * (j' : ℚ)))
          ∧ l = blade.map (fun c => round (c * (rescaleNorm blade t * (j : ℚ))))) := by
  cases hfind : (List.range' 1 (p - 1)).find?
      (fun j : ℕ => decide (goodMult blade t (rescaleNorm blade t * (j : ℚ)))) with
  | none =>
      have herr : rescaleBlade blade p t
          = Except.error "Failed to rescale. Try increasing persistence." := by
        simp only [rescaleBlade]
        rw [hfind]
      constructor
      · rw [herr]
        constructor
        · intro _ j h1 h2
          have hmem : j ∈ List.range' 1 (p - 1) :=
            List.mem_range'_1.mpr ⟨h1, by omega⟩
          have := List.find?_eq_none.mp hfind j hmem
          simpa using this
        · intro _
          rfl
      · intro l hl
        rw [herr] at hl
        exact Except.noConfusion hl
  | some j =>
      obtain ⟨hp, h1, h2, hmin⟩ := find?_range'_some _ (p - 1) 1 j hfind
      have hgood : goodMult blade t (rescaleNorm blade t * (j : ℚ)) := by
        simpa using hp
      have hok : rescaleBlade blade p t
          = Except.ok (blade.map
              (fun c => round (c * (rescaleNorm blade t * (j : ℚ))))) := by
        simp only [rescaleBlade]
        rw [hfind]
      constructor
      · rw [hok]
        constructor
        · intro h
          exact Except.noConfusion h
        · intro hall
          exact absurd hgood (hall j h1 (by omega))
      · intro l hl
        rw [hok] at hl
        refine ⟨j, h1, by omega, hgood, ?_, (Except.ok.inj hl).symm⟩
        intro j' hj1 hj2
        have := hmin j' hj1 hj2
        simpa using this

/-- Witness for C6's amended theorem: the all-integer blade [1] with
persistence 2 succeeds at the first multiplier. -/
theorem rescale_spec_witness :
    rescaleBlade [(1 : ℚ)] 2 (1/10000) = Except.ok [1]
    ∧ ∃ j : ℕ, 1 ≤ j ∧ j < 2
        ∧ goodMult [(1 : ℚ)] (1/10000) (rescaleNorm [(1 : ℚ)] (1/10000) * (j : ℚ))
        ∧ (∀ j' : ℕ, 1 ≤ j' → j' < j →
            ¬ goodMult [(1 : ℚ)] (1/10000) (rescaleNorm [(1 : ℚ)] (1/10000) * (j' : ℚ)))
        ∧ [(1 : ℤ)] = [(1 : ℚ)].map
            (fun c => round (c * (rescaleNorm [(1 : ℚ)] (1/10000) * (j : ℚ)))) := by
  have hmin : minAbsAbove [(1 : ℚ)] (1/10000) = some 1 := by
    show minStep (1/10000) none (1 : ℚ) = some 1
    rw [show minStep ((1 : ℚ)/10000) none (1 : ℚ)
        = if (1 : ℚ)/10000 < |(1 : ℚ)| then some (1 : ℚ) else none from rfl,
      abs_one, if_pos (by norm_num)]
  have hnorm : rescaleNorm [(1 : ℚ)] (1/10000) = 1 := by
    unfold rescaleNorm
    rw [hmin]
    norm_num
  have hgood : goodMult [(1 : ℚ)] (1/10000)
      (rescaleNorm [(1 : ℚ)] (1/10000) * ((1 : ℕ) : ℚ)) := by
    rw [hnorm]
    intro c hc
    rw [List.mem_singleton.mp hc]
    norm_num [round_eq]
  have hfind : (List.range' 1 (2 - 1)).find?
      (fun j : ℕ => decide (goodMult [(1 : ℚ)] (1/10000)
        (rescaleNorm [(1 : ℚ)] (1/10000) * (j : ℚ)))) = some 1 := by
    rw [show List.range' 1 (2 - 1) = [1] from rfl, List.find?_cons,
      decide_eq_true hgood]
  have hpay : [(1 : ℚ)].map
      (fun c => round (c * (rescaleNorm [(1 : ℚ)] (1/10000) * ((1 : ℕ) : ℚ))))
      = [(1 : ℤ)] := by
    rw [List.map_cons, List.map_nil, hnorm]
    norm_num [round_eq]
  have hok : rescaleBlade [(1 : ℚ)] 2 (1/10000) = Except.ok [1] := by
    simp only [rescaleBlade]
    rw [hfind]
    show Except.ok ([(1 : ℚ)].map
        (fun c => round (c * (rescaleNorm [(1 : ℚ)] (1/10000) * ((1 : ℕ) : ℚ)))))
      = Except.ok [(1 : ℤ)]
    rw [hpay]
  exact ⟨hok, (rescale_spec [(1 : ℚ)] 2 (1/10000)).2 [1] hok⟩

/-- Counterexample for C6 as stated: with blade [1/2, 1/3], threshold
1/10000 and persistence 2, the multiplier 2 (equal to persistence, inside
the claimed inclusive range of multipliers 1..persistence) makes every
component integral, yet the code reports the rescale error because its
loop only tries multipliers strictly below persistence. -/
theorem rescale_persistence_cex :
    rescaleBlade [(1 : ℚ)/2, 1/3] 2 (1/10000)
        = Except.error "Failed to rescale. Try increasing persistence."
    ∧ goodMult [(1 : ℚ)/2, 1/3] (1/10000)
        (rescaleNorm [(1 : ℚ)/2, 1/3] (1/10000) * ((2 : ℕ) : ℚ)) := by
  have habs2 : |(1 : ℚ)/2| = 1/2 := abs_of_pos (by norm_num)
  have habs3 : |(1 : ℚ)/3| = 1/3 := abs_of_pos (by norm_num)
  have hstep1 : minStep ((1 : ℚ)/10000) none ((1 : ℚ)/2) = some (1/2) := by
    rw [show minStep ((1 : ℚ)/10000) none ((1 : ℚ)/2)
        = if (1 : ℚ)/10000 < |(1 : ℚ)/2| then some ((1 : ℚ)/2) else none from rfl,
      habs2, if_pos (by norm_num)]
  have hstep2 : minStep ((1 : ℚ)/10000) (some ((1 : ℚ)/2)) ((1 : ℚ)/3)
      = some (1/3) := by
    rw [show minStep ((1 : ℚ)/10000) (some ((1 : ℚ)/2)) ((1 : ℚ)/3)
        = if (1 : ℚ)/10000 < |(1 : ℚ)/3| ∧ |(1 : ℚ)/3| < |(1 : ℚ)/2|
          then some ((1 : ℚ)/3) else some ((1 : ℚ)/2) from rfl,
      habs2, habs3, if_pos (by constructor <;> norm_num)]
  have hmin : minAbsAbove [(1 : ℚ)/2, 1/3] (1/10000) = some (1/3) := by
    show minStep ((1 : ℚ)/10000) (minStep ((1 : ℚ)/10000) none ((1 : ℚ)/2))
        ((1 : ℚ)/3) = some (1/3)
    rw [hstep1, hstep2]
  have hnorm : rescaleNorm [(1 : ℚ)/2, 1/3] (1/10000) = 3 := by
    unfold rescaleNorm
    rw [hmin]
    norm_num
  have hbad : ¬ goodMult [(1 : ℚ)/2, 1/3] (1/10000)
      (rescaleNorm [(1 : ℚ)/2, 1/3] (1/10000) * ((1 : ℕ) : ℚ)) := by
    rw [hnorm]
    intro hg
    have hhead := hg ((1 : ℚ)/2) (List.mem_cons_self _ _)
    rw [show (1 : ℚ)/2 * (3 * ((1 : ℕ) : ℚ)) = 3/2 by push_cast; ring] at hhead
    rw [show round ((3 : ℚ)/2) = 2 by norm_num [round_eq]] at hhead
    rw [show |(3 : ℚ)/2 - ((2 : ℤ) : ℚ)| = 1/2 by
      rw [show ((2 : ℤ) : ℚ) = 2 by norm_num, abs_of_neg (by norm_num)]
      norm_num] at hhead
    norm_num at hhead
  have hfind : (List.range' 1 (2 - 1)).find?
      (fun j : ℕ => decide (goodMult [(1 : ℚ)/2, 1/3] (1/10000)
        (rescaleNorm [(1 : ℚ)/2, 1/3] (1/10000) * (j : ℚ)))) = none := by
    rw [show List.range' 1 (2 - 1) = [1] from rfl, List.find?_cons,
      decide_eq_false hbad]
    rfl
  constructor
  · simp only [rescaleBlade]
    rw [hfind]
  · rw [hnorm]
    intro c hc
    rcases List.mem_cons.mp hc with rfl | hc2
    · rw [show (1 : ℚ)/2 * (3 * ((2 : ℕ) : ℚ)) = 3 by push_cast; ring]
      rw [show round ((3 : ℚ)) = 3 by norm_num [round_eq]]
      norm_num
    · rw [List.mem_singleton.mp hc2]
      rw [show (1 : ℚ)/3 * (3 * ((2 : ℕ) : ℚ)) = 2 by push_cast; ring]
      rw [show round ((2 : ℚ)) = 2 by norm_num [round_eq]]
      norm_num
